import Mathlib

/-!
Verification of the run-ai (rai) CLI core against its natural-language
specification.  The Go sources are shallowly embedded: pure functions become
Lean functions, streaming parsers become functions from the scanned input
lines to the list of events they send on the channel, and the session runner
becomes a state-passing function over an explicit provider script.  Machine
integers (Go `int`) are modelled as `Int`/`Nat` with explicit bounds where
overflow matters.  JSON decoding performed by the Go standard library is
modelled by decoder parameters: the properties proved hold for every decoder,
and concrete decoders are supplied where a scenario is evaluated.
-/

namespace RunAI

/-! ## Shared provider data model (internal/provider, provider.go) -/

/-- ToolCall represents a tool invocation requested by the provider. -/
structure ToolCall where
  id : String := ""
  name : String := ""
  arguments : String := ""
  deriving Repr, DecidableEq

/-- Message represents a single message in a conversation. -/
structure Message where
  role : String
  content : String
  toolCallID : String := ""
  toolCalls : List ToolCall := []
  deriving Repr, DecidableEq

/-- StreamEvent mirrors the Go struct: a chunk of streaming output from a
provider.  The Go adapters set exactly one field per event; the zero value of
each unset field is kept, as in Go. -/
structure StreamEvent where
  text : String := ""
  reasoningSummary : String := ""
  toolCalls : List ToolCall := []
  done : Bool := false
  error : Option String := none
  deriving Repr, DecidableEq

/-! ## Copilot model routing (copilot.go, shouldUseResponsesAPI) -/

/-- Embeds `strings.HasPrefix` on the underlying character lists (UTF-8 byte
order agrees with character order, so byte prefixes are character prefixes). -/
def hasPrefixCl : List Char → List Char → Bool
  | _, [] => true
  | [], _ :: _ => false
  | c :: cs, p :: ps => c == p && hasPrefixCl cs ps

/-- Embeds `strings.HasPrefix` on strings. -/
def goHasPrefix (s pat : String) : Bool :=
  hasPrefixCl s.data pat.data

/-- Upper bound of a 64-bit Go `int`, the target type of `strconv.Atoi`. -/
def maxGoInt : Nat := 9223372036854775807

/-- Numeric value of a run of decimal digits. -/
def digitsToNat (ds : List Char) : Nat :=
  ds.foldl (fun acc c => acc * 10 + (c.toNat - '0'.toNat)) 0

/-- Embeds `gptVersionRe.FindStringSubmatch` for the anchored pattern
`^gpt-(\d+)`: the submatch is the maximal run of ASCII digits directly after
a leading "gpt-", and `none` when the pattern does not match. -/
def gptVersionDigits (modelID : String) : Option (List Char) :=
  let cs := modelID.data
  if cs.take 4 = "gpt-".data then
    let ds := (cs.drop 4).takeWhile Char.isDigit
    if ds.isEmpty then none else some ds
  else none

/-- Embeds `strconv.Atoi` on a non-empty run of decimal digits: the numeric
value when it fits a 64-bit signed integer, `none` (ErrRange) otherwise. -/
def goAtoi (ds : List Char) : Option Nat :=
  let v := digitsToNat ds
  if v ≤ maxGoInt then some v else none

/-- Embeds `shouldUseResponsesAPI` (copilot.go): true for GPT-5+ models except
gpt-5-mini; false when the version digits fail to parse as a Go int. -/
def shouldUseResponsesAPI (modelID : String) : Bool :=
  match gptVersionDigits modelID with
  | none => false
  | some ds =>
    match goAtoi ds with
    | none => false
    | some v => decide (5 ≤ v) && !(goHasPrefix modelID "gpt-5-mini")

/-- Modelled from the spec words of claim C2: the Responses API is selected
exactly when the ID matches `^gpt-(\d+)` with N ≥ 5 (as an unbounded number)
and does not start with gpt-5-mini. -/
def specShouldUseResponsesAPI (modelID : String) : Bool :=
  match gptVersionDigits modelID with
  | none => false
  | some ds => decide (5 ≤ digitsToNat ds) && !(goHasPrefix modelID "gpt-5-mini")

/-- Amended routing predicate: as the spec states it, except that the digit
run must also parse as a 64-bit signed integer (`strconv.Atoi`), mirroring the
overflow failure path of the code. -/
def amendedShouldUseResponsesAPI (modelID : String) : Bool :=
  match gptVersionDigits modelID with
  | none => false
  | some ds =>
    decide (digitsToNat ds ≤ maxGoInt) && decide (5 ≤ digitsToNat ds) &&
      !(goHasPrefix modelID "gpt-5-mini")

/-! ## Copilot request headers (copilot.go, setHeaders) -/

/-- Embeds `copilotProvider.setHeaders`: the fixed header set placed on every
Copilot HTTP request.  Note that the function does not inspect the request
messages at all. -/
def copilotSetHeaders (token : String) : List (String × String) :=
  [("Content-Type", "application/json"),
   ("Authorization", "Bearer " ++ token),
   ("User-Agent", "rai/0.1.0"),
   ("Openai-Intent", "conversation-edits"),
   ("x-initiator", "user")]

/-- Value of the first header with the given name. -/
def headerValue (hs : List (String × String)) (name : String) : Option String :=
  (hs.find? (fun h => h.1 == name)).map (·.2)

/-- Modelled from the spec (and the repository document
`specs/07-opencode-github-implementation.md`): `x-initiator` is "user" when
the last inbound message is a user turn and "agent" otherwise. -/
def specXInitiator (msgs : List Message) : String :=
  match msgs.getLast? with
  | some m => if m.role = "user" then "user" else "agent"
  | none => "agent"

/-! ## Copilot device-code polling (copilot_auth.go, DeviceAuth) -/

/-- Parsed body of one token-endpoint poll response. -/
structure TokenPollResp where
  accessToken : String := ""
  error : String := ""
  interval : Int := 0
  deriving Repr, DecidableEq

/-- Embeds the initial polling interval: `deviceData.Interval` seconds,
clamped up to 5 seconds when below one second.  Times are in milliseconds. -/
def initialPollIntervalMs (deviceInterval : Int) : Int :=
  let d := deviceInterval * 1000
  if d < 1000 then 5000 else d

/-- Embeds the slow_down branch of DeviceAuth: the new interval is the
server-supplied `interval` when positive, else the ORIGINAL device-code
interval (`deviceData.Interval`) plus 5 seconds. -/
def slowDownIntervalMs (deviceInterval : Int) (r : TokenPollResp) : Int :=
  if r.interval > 0 then r.interval * 1000 else (deviceInterval + 5) * 1000

/-- Sleep durations (ms) before each poll of the DeviceAuth loop, given the
current interval and the successive parsed token responses.  Each loop turn
sleeps `interval + 500ms`, then handles the response: a token or an
unrecognised error terminates; authorization_pending, an empty error, and
slow_down continue, the latter updating the interval. -/
def devicePollSleepsMs (deviceInterval : Int) : Int → List TokenPollResp → List Int
  | _, [] => []
  | cur, r :: rs =>
    (cur + 500) ::
      (if r.accessToken ≠ "" then []
       else if r.error = "authorization_pending" then devicePollSleepsMs deviceInterval cur rs
       else if r.error = "slow_down" then
         devicePollSleepsMs deviceInterval (slowDownIntervalMs deviceInterval r) rs
       else if r.error = "" then devicePollSleepsMs deviceInterval cur rs
       else [])

/-- Full sleep trace of the polling loop of DeviceAuth. -/
def deviceAuthSleepTraceMs (deviceInterval : Int) (resps : List TokenPollResp) : List Int :=
  devicePollSleepsMs deviceInterval (initialPollIntervalMs deviceInterval) resps

/-- Modelled from the spec of claim C5 (and RFC 8628 §3.5, which the code
comment also cites): on slow_down the new interval is the server-supplied
value when positive, else the PREVIOUS polling interval plus 5 seconds. -/
def specSlowDownIntervalMs (prevMs : Int) (r : TokenPollResp) : Int :=
  if r.interval > 0 then r.interval * 1000 else prevMs + 5000

/-- Sleep trace under the spec's slow_down rule; otherwise identical to
`devicePollSleepsMs`. -/
def specPollSleepsMs : Int → List TokenPollResp → List Int
  | _, [] => []
  | cur, r :: rs =>
    (cur + 500) ::
      (if r.accessToken ≠ "" then []
       else if r.error = "authorization_pending" then specPollSleepsMs cur rs
       else if r.error = "slow_down" then
         specPollSleepsMs (specSlowDownIntervalMs cur r) rs
       else if r.error = "" then specPollSleepsMs cur rs
       else [])

/-- Full sleep trace under the spec's slow_down rule. -/
def specDeviceAuthSleepTraceMs (deviceInterval : Int) (resps : List TokenPollResp) : List Int :=
  specPollSleepsMs (initialPollIntervalMs deviceInterval) resps

/-! ## Stream events and the terminal-event ordering property -/

/-- Event carrying only text, as constructed by the adapters. -/
def textEvent (t : String) : StreamEvent := { text := t }

/-- Terminal done event. -/
def doneEvent : StreamEvent := { done := true }

/-- Terminal error event. -/
def errorEvent (e : String) : StreamEvent := { error := some e }

/-- Event carrying tool calls. -/
def toolCallsEvent (tcs : List ToolCall) : StreamEvent := { toolCalls := tcs }

/-- An event is terminal when it is a done or an error event. -/
def isTerminal (ev : StreamEvent) : Bool := ev.done || ev.error.isSome

/-- Property: every terminal event of a trace sits at its last position, i.e.
once done or error has been sent no further event of any kind follows. -/
def terminalLast (evs : List StreamEvent) : Prop :=
  ∀ ev ∈ evs.dropLast, isTerminal ev = false

/-- Embeds `strings.TrimPrefix`. -/
def goTrimPrefix (s pat : String) : String :=
  if goHasPrefix s pat then ⟨s.data.drop pat.data.length⟩ else s

/-! ## Anthropic Messages streaming parser (anthropic.go, readSSE)

The parser is a function of the scanned lines.  `cancel n` tells whether the
context is observed as cancelled at the select preceding line `n`; `scanErr`
is the scanner error reported after the last line, if any.  JSON decoding of
the two payload shapes the parser inspects is supplied by decoder parameters
(`none` models an unmarshal failure). -/

/-- Fields of the `content_block_delta` payload read by the parser. -/
structure AnthropicDeltaEvent where
  type : String := ""
  text : String := ""
  pjson : String := ""
  deriving Repr, DecidableEq

/-- Embeds `anthropicProvider.readSSE`: named-event SSE state machine keyed by
the last `event:` line.  Note that the `content_block_start` branch decodes
the payload and discards it (the source reads `_ = block`), and that no
branch ever constructs a tool_calls event. -/
def anthropicReadSSE (cancel : Nat → Bool)
    (decDelta : String → Option AnthropicDeltaEvent)
    (decError : String → Option String) :
    Nat → String → List String → Option String → List StreamEvent
  | _, _, [], none => []
  | _, _, [], some e => [errorEvent e]
  | n, cur, line :: rest, scanErr =>
    if cancel n then [errorEvent "context canceled"]
    else if goHasPrefix line "event: " then
      anthropicReadSSE cancel decDelta decError (n+1) (goTrimPrefix line "event: ") rest scanErr
    else if !goHasPrefix line "data: " then
      anthropicReadSSE cancel decDelta decError (n+1) cur rest scanErr
    else
      let payload := goTrimPrefix line "data: "
      if cur = "content_block_delta" then
        match decDelta payload with
        | some d =>
          if d.type == "text_delta" && d.text != "" then
            textEvent d.text :: anthropicReadSSE cancel decDelta decError (n+1) cur rest scanErr
          else anthropicReadSSE cancel decDelta decError (n+1) cur rest scanErr
        | none => anthropicReadSSE cancel decDelta decError (n+1) cur rest scanErr
      else if cur = "content_block_start" then
        anthropicReadSSE cancel decDelta decError (n+1) cur rest scanErr
      else if cur = "message_stop" then [doneEvent]
      else if cur = "error" then
        match decError payload with
        | some m => [errorEvent ("anthropic: " ++ m)]
        | none => []
      else anthropicReadSSE cancel decDelta decError (n+1) cur rest scanErr

/-! ## OpenAI Responses streaming parser (openai.go, readSSE) -/

/-- Fields of the `item` object of a Responses SSE event. -/
structure RespItem where
  type : String := ""
  id : String := ""
  name : String := ""
  arguments : String := ""
  callID : String := ""
  deriving Repr, DecidableEq

/-- Fields of a Responses SSE event payload. -/
structure RespEvent where
  type : String := ""
  delta : String := ""
  item : Option RespItem := none
  deriving Repr, DecidableEq

/-- Embeds `openAIProvider.readSSE`: data-only SSE protocol with a `[DONE]`
sentinel and a switch on the event `type`. -/
def openAIReadSSE (cancel : Nat → Bool) (dec : String → Option RespEvent) :
    Nat → List String → Option String → List StreamEvent
  | _, [], none => []
  | _, [], some e => [errorEvent e]
  | n, line :: rest, scanErr =>
    if cancel n then [errorEvent "context canceled"]
    else if !goHasPrefix line "data: " then openAIReadSSE cancel dec (n+1) rest scanErr
    else
      let payload := goTrimPrefix line "data: "
      if payload = "[DONE]" then [doneEvent]
      else match dec payload with
        | none => openAIReadSSE cancel dec (n+1) rest scanErr
        | some ev =>
          if ev.type = "response.output_text.delta" then
            (if ev.delta != "" then [textEvent ev.delta] else []) ++
              openAIReadSSE cancel dec (n+1) rest scanErr
          else if ev.type = "response.reasoning_summary_text.delta" then
            (if ev.delta != "" then [{ reasoningSummary := ev.delta }] else []) ++
              openAIReadSSE cancel dec (n+1) rest scanErr
          else if ev.type = "response.function_call_arguments.done" then
            (match ev.item with
             | some it =>
               [toolCallsEvent [{ id := it.callID, name := it.name, arguments := it.arguments }]]
             | none => []) ++ openAIReadSSE cancel dec (n+1) rest scanErr
          else if ev.type = "response.completed" then [doneEvent]
          else openAIReadSSE cancel dec (n+1) rest scanErr

/-- Embeds `copilotProvider.readResponsesSSE` (copilot.go): identical wire
format to the OpenAI Responses parser except that reasoning deltas are not
handled. -/
def copilotReadResponsesSSE (cancel : Nat → Bool) (dec : String → Option RespEvent) :
    Nat → List String → Option String → List StreamEvent
  | _, [], none => []
  | _, [], some e => [errorEvent e]
  | n, line :: rest, scanErr =>
    if cancel n then [errorEvent "context canceled"]
    else if !goHasPrefix line "data: " then copilotReadResponsesSSE cancel dec (n+1) rest scanErr
    else
      let payload := goTrimPrefix line "data: "
      if payload = "[DONE]" then [doneEvent]
      else match dec payload with
        | none => copilotReadResponsesSSE cancel dec (n+1) rest scanErr
        | some ev =>
          if ev.type = "response.output_text.delta" then
            (if ev.delta != "" then [textEvent ev.delta] else []) ++
              copilotReadResponsesSSE cancel dec (n+1) rest scanErr
          else if ev.type = "response.function_call_arguments.done" then
            (match ev.item with
             | some it =>
               [toolCallsEvent [{ id := it.callID, name := it.name, arguments := it.arguments }]]
             | none => []) ++ copilotReadResponsesSSE cancel dec (n+1) rest scanErr
          else if ev.type = "response.completed" then [doneEvent]
          else copilotReadResponsesSSE cancel dec (n+1) rest scanErr

/-! ## Copilot Chat streaming parser (copilot.go, readChatSSE) -/

/-- One entry of `delta.tool_calls` in a Chat SSE chunk. -/
structure ChatDeltaToolCall where
  index : Int := 0
  id : String := ""
  name : String := ""
  arguments : String := ""
  deriving Repr, DecidableEq

/-- The parts of `choices[0]` read by the parser.  A decoder returning `none`
covers both an unmarshal failure and an empty `choices` array, which the
source treats identically (continue). -/
structure ChatChunkDelta where
  content : String := ""
  toolCalls : List ChatDeltaToolCall := []
  finishReason : Option String := none
  deriving Repr, DecidableEq

/-- Accumulated tool call per block index (Go `chatToolAcc`). -/
structure ChatToolAcc where
  id : String := ""
  name : String := ""
  args : String := ""
  deriving Repr, DecidableEq

/-- Merge one delta entry into its accumulator: retain the first non-empty id
and name, concatenate arguments. -/
def chatAccApply (a : ChatToolAcc) (tc : ChatDeltaToolCall) : ChatToolAcc :=
  { id := if tc.id != "" then tc.id else a.id,
    name := if tc.name != "" then tc.name else a.name,
    args := a.args ++ tc.arguments }

/-- Insert or update the accumulator entry with the delta's index.  Go's
`map[int]*chatToolAcc` is modelled as an association list in first-insertion
order; its iteration order in `flushToolCalls` is unspecified in Go and no
theorem below depends on it. -/
def chatAccInsert : List (Int × ChatToolAcc) → ChatDeltaToolCall → List (Int × ChatToolAcc)
  | [], tc => [(tc.index, chatAccApply {} tc)]
  | (i, a) :: rest, tc =>
    if i = tc.index then (i, chatAccApply a tc) :: rest
    else (i, a) :: chatAccInsert rest tc

/-- Embeds `copilotProvider.flushToolCalls`: one tool_calls event per
accumulated entry with a non-empty name. -/
def flushToolCalls (acc : List (Int × ChatToolAcc)) : List StreamEvent :=
  acc.filterMap (fun p =>
    if p.2.name != "" then
      some (toolCallsEvent [{ id := p.2.id, name := p.2.name, arguments := p.2.args }])
    else none)

/-- Embeds `copilotProvider.readChatSSE`: Chat Completions SSE with per-index
tool-call accumulation flushed on `finish_reason` of tool_calls/stop or at the
`[DONE]` sentinel. -/
def copilotReadChatSSE (cancel : Nat → Bool) (dec : String → Option ChatChunkDelta) :
    Nat → List (Int × ChatToolAcc) → List String → Option String → List StreamEvent
  | _, _, [], none => []
  | _, _, [], some e => [errorEvent e]
  | n, acc, line :: rest, scanErr =>
    if cancel n then [errorEvent "context canceled"]
    else if !goHasPrefix line "data: " then copilotReadChatSSE cancel dec (n+1) acc rest scanErr
    else
      let payload := goTrimPrefix line "data: "
      if payload = "[DONE]" then flushToolCalls acc ++ [doneEvent]
      else match dec payload with
        | none => copilotReadChatSSE cancel dec (n+1) acc rest scanErr
        | some delta =>
          let textEvs := if delta.content != "" then [textEvent delta.content] else []
          let acc2 := delta.toolCalls.foldl chatAccInsert acc
          let doFlush := match delta.finishReason with
            | some fr => (fr == "tool_calls" || fr == "stop") && !acc2.isEmpty
            | none => false
          if doFlush then
            textEvs ++ flushToolCalls acc2 ++ copilotReadChatSSE cancel dec (n+1) [] rest scanErr
          else
            textEvs ++ copilotReadChatSSE cancel dec (n+1) acc2 rest scanErr

/-! ## Google Gemini streaming parser (google.go, readStream) -/

/-- A function-call part; `args` carries the JSON-encoded arguments. -/
structure GeminiFunctionCall where
  name : String := ""
  args : String := ""
  deriving Repr, DecidableEq

/-- One part of a candidate's content. -/
structure GeminiPart where
  text : String := ""
  functionCall : Option GeminiFunctionCall := none
  deriving Repr, DecidableEq

/-- One decoded element of the streamed JSON array; `candidates` lists each
candidate's content parts. -/
structure GeminiChunk where
  candidates : List (List GeminiPart) := []
  errorMsg : Option String := none
  deriving Repr, DecidableEq

/-- Non-streaming response assembled from a chunk. -/
structure Response where
  content : String := ""
  reasoningSummary : String := ""
  toolCalls : List ToolCall := []
  deriving Repr, DecidableEq

/-- Embeds `googleProvider.parseResponse`: concatenate candidate text parts,
collect function-call parts as tool calls. -/
def googleParseResponse (c : GeminiChunk) : Response :=
  c.candidates.foldl (fun r parts =>
    parts.foldl (fun r p =>
      let r1 := if p.text != "" then { r with content := r.content ++ p.text } else r
      match p.functionCall with
      | some fc => { r1 with toolCalls := r1.toolCalls ++ [{ name := fc.name, arguments := fc.args }] }
      | none => r1) r) {}

/-- Outcome of reading the opening token of the streamed JSON array. -/
inductive GoogleStart where
  | tokenErr (msg : String)
  | notArray
  | ok
  deriving Repr, DecidableEq

/-- Element loop of `googleProvider.readStream`; each input is either a
decoded chunk or a decode error. -/
def googleReadChunks (cancel : Nat → Bool) :
    Nat → List (Except String GeminiChunk) → List StreamEvent
  | _, [] => [doneEvent]
  | n, c :: cs =>
    if cancel n then [errorEvent "context canceled"]
    else match c with
      | .error e => [errorEvent ("decoding stream chunk: " ++ e)]
      | .ok chunk =>
        match chunk.errorMsg with
        | some m => [errorEvent ("google error: " ++ m)]
        | none =>
          let resp := googleParseResponse chunk
          (if resp.content != "" then [textEvent resp.content] else []) ++
            resp.toolCalls.map (fun tc => toolCallsEvent [tc]) ++
            googleReadChunks cancel (n+1) cs

/-- Embeds `googleProvider.readStream`: opening-bracket check, element loop,
then a final done event. -/
def googleReadStream (cancel : Nat → Bool) (start : GoogleStart)
    (chunks : List (Except String GeminiChunk)) : List StreamEvent :=
  match start with
  | .tokenErr e => [errorEvent ("reading stream start: " ++ e)]
  | .notArray => [errorEvent "unexpected stream format"]
  | .ok => googleReadChunks cancel 0 chunks

/-! ## Go string helpers shared by the sink, runner and config embeddings -/

/-- Embeds `unicode.IsSpace`: the Unicode White_Space code points, which is
exactly the set Go's `strings.TrimSpace` trims. -/
def goIsSpace (c : Char) : Bool :=
  (9 ≤ c.toNat && c.toNat ≤ 13) || c.toNat = 32 || c.toNat = 0x85 || c.toNat = 0xA0 ||
  c.toNat = 0x1680 || (0x2000 ≤ c.toNat && c.toNat ≤ 0x200A) ||
  c.toNat = 0x2028 || c.toNat = 0x2029 || c.toNat = 0x202F || c.toNat = 0x205F ||
  c.toNat = 0x3000

/-- Embeds `strings.TrimSpace` on character lists. -/
def trimSpaceCl (l : List Char) : List Char :=
  ((l.dropWhile goIsSpace).reverse.dropWhile goIsSpace).reverse

/-- Embeds `strings.TrimSpace` on strings. -/
def goTrimSpace (s : String) : String := ⟨trimSpaceCl s.data⟩

/-- Embeds `strings.ToLower`, restricted to ASCII case mapping; Go lowers the
full Unicode range, but the two agree on every comparison performed by the
embedded code (all compared prefixes are ASCII). -/
def goToLower (s : String) : String := ⟨s.data.map Char.toLower⟩

/-- Embeds `strings.Split(s, sep)` for a one-character separator, on character
lists: all pieces, empties included. -/
def splitCl : List Char → Char → List (List Char)
  | [], _ => [[]]
  | c :: cs, sep =>
    let r := splitCl cs sep
    if c = sep then [] :: r
    else
      match r with
      | [] => [[c]]
      | h :: t => (c :: h) :: t

/-- Embeds `strings.Split(s, "\n")`. -/
def splitOnNL (s : String) : List String := (splitCl s.data '\n').map (fun l => ⟨l⟩)

/-- Join with newline separators (`strings.Join(l, "\n")`). -/
def joinNL : List String → String
  | [] => ""
  | [x] => x
  | x :: xs => x ++ "\n" ++ joinNL xs

/-- Embeds `strings.HasSuffix(t, "\n")`. -/
def endsWithNewline (t : String) : Bool := t.data.getLast? == some '\n'

/-! ## Output sink (internal/output/output.go)

The sink is modelled as explicit state: the accumulated console output and
the sequence of log file entries.  Per-record millisecond timestamps and the
textual content of the session header block are abstracted; the order and
payload of records is kept.  All sink methods run under one mutex in the
source, so state-passing captures their sequential effect. -/

/-- EventKind identifies the type of output event. -/
inductive EventKind where
  | AI
  | REASON
  | CMD
  | OUT
  | ERR
  deriving Repr, DecidableEq

/-- Console/log tag of an event kind. -/
def EventKind.tag : EventKind → String
  | .AI => "AI"
  | .REASON => "REASON"
  | .CMD => "CMD"
  | .OUT => "OUT"
  | .ERR => "ERR"

/-- One entry of the session log file: the header block or a record. -/
inductive LogEntry where
  | header
  | record (kind : EventKind) (text : String)
  deriving Repr, DecidableEq

/-- State of an output sink. -/
structure SinkState where
  silent : Bool
  logEnabled : Bool
  console : String := ""
  log : List LogEntry := []
  deriving Repr, DecidableEq

/-- Embeds `Sink.Emit`: console line unless silent (errors always shown), log
record when logging. -/
def SinkState.emit (s : SinkState) (kind : EventKind) (text : String) : SinkState :=
  { s with
    console :=
      if !s.silent || kind == .ERR then
        s.console ++ ("[" ++ kind.tag ++ "] " ++ text ++ "\n")
      else s.console,
    log := if s.logEnabled then s.log ++ [.record kind text] else s.log }

/-- Embeds `Sink.EmitLog`: log-only record. -/
def SinkState.emitLog (s : SinkState) (kind : EventKind) (text : String) : SinkState :=
  { s with log := if s.logEnabled then s.log ++ [.record kind text] else s.log }

/-- Embeds `Sink.BeginAIStream`. -/
def SinkState.beginAIStream (s : SinkState) : SinkState :=
  if s.silent then s else { s with console := s.console ++ "[AI] " }

/-- Embeds `Sink.EmitAIChunk`: console-only, no prefix, no newline, and no log
write at all. -/
def SinkState.emitAIChunk (s : SinkState) (text : String) : SinkState :=
  if s.silent then s else { s with console := s.console ++ text }

/-- Embeds `Sink.EndAIStream`. -/
def SinkState.endAIStream (s : SinkState) (finalText : String) : SinkState :=
  if s.silent then s
  else if endsWithNewline finalText then s
  else { s with console := s.console ++ "\n" }

/-- Embeds `Sink.EmitFinal`: always printed to the console, recorded in the
log as an AI record. -/
def SinkState.emitFinal (s : SinkState) (text : String) : SinkState :=
  { s with
    console := s.console ++ (text ++ (if endsWithNewline text then "" else "\n")),
    log := if s.logEnabled then s.log ++ [.record .AI text] else s.log }

/-- Embeds `Sink.WriteHeader` (a no-op when logging is disabled). -/
def SinkState.writeHeader (s : SinkState) : SinkState :=
  { s with log := if s.logEnabled then s.log ++ [.header] else s.log }

/-! ## Tool executor and session runner (internal/session/runner.go) -/

/-- Iteration cap of the tool loop. -/
def maxToolIterations : Nat := 10

/-- Name of the built-in terminal tool. -/
def terminalToolName : String := "terminal"

/-- Skill metadata as consumed by the runner. -/
structure Skill where
  name : String
  description : String
  dir : String
  body : String
  deriving Repr, DecidableEq

/-- Outcome of one subprocess execution as observed by `runTerminalCommand`:
the combined stdout+stderr captured so far, whether the 30-second context
deadline fired, and the error `CombinedOutput` returned otherwise. -/
structure ExecOutcome where
  output : String := ""
  deadlineExceeded : Bool := false
  runError : Option String := none
  deriving Repr, DecidableEq

/-- Embeds `runTerminalCommand`\'s result handling: the captured output is
returned in every branch, together with "command timed out" on deadline,
"command failed: ..." on any other execution error. -/
def runTerminalCommand (o : ExecOutcome) : String × Option String :=
  if o.deadlineExceeded then (o.output, some "command timed out")
  else
    match o.runError with
    | some e => (o.output, some ("command failed: " ++ e))
    | none => (o.output, none)

/-- Environment of one session: the provider stream opened at each iteration
(`Stream` result: an open error or the list of channel events), the JSON
decoding of terminal-tool arguments (`parseTerminalArgs`), and the terminal
executor keyed by the resolved command. -/
structure RunEnv where
  streams : Nat → Except String (List StreamEvent)
  parseTerminalArgs : String → Except String String
  execTerminal : String → String × Option String

/-- Embeds `executeToolCall`: terminal dispatch, then first skill with a
matching name, else an unknown-tool error. -/
def executeToolCall (env : RunEnv) (skills : List Skill) (tc : ToolCall) :
    String × Option String :=
  if tc.name = terminalToolName then
    match env.parseTerminalArgs tc.arguments with
    | .error e => ("", some e)
    | .ok cmd => env.execTerminal cmd
  else
    match skills.find? (fun sk => sk.name == tc.name) with
    | some sk => ("[skill: " ++ sk.name ++ "]\n" ++ sk.body, none)
    | none => ("", some ("unknown tool: " ++ tc.name))

/-- Shared tail of the per-tool-call block of `session.Run`: emit the CMD
label, execute, report OUT on success or ERR plus OUT (when partial output
exists) on failure, and append the tool message fed back to the model. -/
def processToolCallExec (env : RunEnv) (skills : List Skill) (s : SinkState)
    (msgs : List Message) (tc : ToolCall) (cmdLabel : String) :
    SinkState × List Message :=
  let s1 := s.emit .CMD cmdLabel
  let res := executeToolCall env skills tc
  match res.2 with
  | some e =>
    let errMsg := "tool error: " ++ e
    let s2 := s1.emit .ERR errMsg
    if res.1 != "" then
      (s2.emit .OUT res.1,
       msgs ++ [{ role := "tool",
                  content := "[" ++ tc.name ++ " result]\n" ++ errMsg ++ "\n" ++ res.1,
                  toolCallID := tc.id }])
    else
      (s2,
       msgs ++ [{ role := "tool",
                  content := "[" ++ tc.name ++ " result]\n" ++ errMsg,
                  toolCallID := tc.id }])
  | none =>
    (s1.emit .OUT res.1,
     msgs ++ [{ role := "tool",
                content := "[" ++ tc.name ++ " result]\n" ++ res.1,
                toolCallID := tc.id }])

/-- Embeds the per-tool-call block of `session.Run` (label resolution: the
terminal tool is labelled with its resolved command, other tools with
`tool: name(args)`; a terminal argument-parse failure emits the error and
feeds it back without executing). -/
def processToolCall (env : RunEnv) (skills : List Skill) :
    SinkState × List Message → ToolCall → SinkState × List Message
  | (s, msgs), tc =>
    if tc.name = terminalToolName then
      match env.parseTerminalArgs tc.arguments with
      | .error e =>
        (s.emit .ERR ("tool error: " ++ e),
         msgs ++ [{ role := "tool", content := "[" ++ tc.name ++ " result]\n" ++ e }])
      | .ok cmd => processToolCallExec env skills s msgs tc cmd
    else
      processToolCallExec env skills s msgs tc
        ("tool: " ++ tc.name ++ "(" ++ tc.arguments ++ ")")

/-- Result of consuming one stream channel until it closes or errors. -/
inductive ConsumeOut where
  | errored (s : SinkState) (err : String)
  | finished (s : SinkState) (fullText reasoning : String)
      (toolCalls : List ToolCall) (streamingAI : Bool)
  deriving Repr, DecidableEq

/-- Embeds the event-consumption loop of `session.Run`: accumulate text (and
stream it to the console when not silent), reasoning, and tool calls; a
stream error ends the in-flight AI stream, emits ERR and aborts. -/
def consumeStream (s : SinkState) (fullText reasoning : String)
    (toolCalls : List ToolCall) (streamingAI : Bool) :
    List StreamEvent → ConsumeOut
  | [] => .finished s fullText reasoning toolCalls streamingAI
  | ev :: evs =>
    match ev.error with
    | some e =>
      let s1 := if streamingAI then s.endAIStream fullText else s
      .errored (s1.emit .ERR ("stream error: " ++ e)) e
    | none =>
      let st :=
        if ev.text != "" then
          if !s.silent then
            let sa := if !streamingAI then s.beginAIStream else s
            (sa.emitAIChunk ev.text, fullText ++ ev.text, true)
          else (s, fullText ++ ev.text, streamingAI)
        else (s, fullText, streamingAI)
      let reasoning1 :=
        if ev.reasoningSummary != "" then reasoning ++ ev.reasoningSummary else reasoning
      let toolCalls1 := if !ev.toolCalls.isEmpty then toolCalls ++ ev.toolCalls else toolCalls
      consumeStream st.1 st.2.1 reasoning1 toolCalls1 st.2.2 evs

/-- Embeds `inferReasoningSummary`: find the first line opening (after
trimming and lowering) with work:/reasoning:/steps: and return the trimmed
join of the lines from there on. -/
def inferReasoningSummaryGo : List String → String
  | [] => ""
  | line :: rest =>
    let lower := goToLower (goTrimSpace line)
    if goHasPrefix lower "work:" || goHasPrefix lower "reasoning:" ||
        goHasPrefix lower "steps:" then
      goTrimSpace (joinNL (line :: rest))
    else inferReasoningSummaryGo rest

/-- Embeds `inferReasoningSummary` on the full text. -/
def inferReasoningSummary (text : String) : String :=
  inferReasoningSummaryGo (splitOnNL text)

/-- Embeds `skills.FormatContext`: deterministic XML skill block, sorted by
name. -/
def formatContext (skills : List Skill) : String :=
  if skills.isEmpty then ""
  else
    let sorted := skills.mergeSort (fun a b => decide (a.name ≤ b.name))
    "<available_skills>\n" ++
      String.join (sorted.map (fun sk =>
        "  <skill>\n    <name>" ++ sk.name ++ "</name>\n    <description>" ++
          sk.description ++ "</description>\n    <location>" ++ sk.dir ++
          "/SKILL.md</location>\n  </skill>\n")) ++
      "</available_skills>"

/-- Embeds `buildMessages`: optional system message (agent prompt and skill
context), then the user prompt. -/
def buildMessages (systemPrompt userPrompt : String) (skills : List Skill) :
    List Message :=
  let p1 := if systemPrompt != "" then systemPrompt else ""
  let skillCtx := if !skills.isEmpty then formatContext skills else ""
  let systemParts :=
    if skillCtx != "" then (if p1 != "" then p1 ++ "\n\n" ++ skillCtx else skillCtx) else p1
  (if systemParts != "" then
    ([{ role := "system", content := systemParts }] : List Message)
  else []) ++ [{ role := "user", content := userPrompt }]

/-- Result of one session run. -/
structure RunResult where
  err : Option String
  sink : SinkState
  messages : List Message
  streamCalls : Nat
  deriving Repr

/-- Embeds the iteration loop of `session.Run`.  `fuel` counts the remaining
iterations (10 at entry), `i` the provider stream calls issued so far. -/
def runLoop (env : RunEnv) (skills : List Skill) :
    Nat → Nat → List Message → SinkState → RunResult
  | 0, i, msgs, s =>
    { err := some "exceeded 10 tool call iterations",
      sink := s.emit .ERR "maximum tool call iterations reached",
      messages := msgs, streamCalls := i }
  | Nat.succ n, i, msgs, s =>
    match env.streams i with
    | .error e =>
      { err := some e, sink := s.emit .ERR ("provider error: " ++ e),
        messages := msgs, streamCalls := i + 1 }
    | .ok evs =>
      match consumeStream s "" "" [] false evs with
      | .errored s1 e =>
        { err := some e, sink := s1, messages := msgs, streamCalls := i + 1 }
      | .finished s1 fullText reasoning toolCalls streamingAI =>
        let s2 := if streamingAI then s1.endAIStream fullText else s1
        let reasoning1 := if reasoning = "" then inferReasoningSummary fullText else reasoning
        let s3 :=
          if fullText != "" && !(s2.silent && toolCalls.isEmpty) then s2.emitLog .AI fullText
          else s2
        if toolCalls.isEmpty then
          let s4 := if s3.silent then s3.emitFinal fullText else s3
          let s5 :=
            if reasoning1 != "" then
              (if s4.silent then s4.emitLog .REASON reasoning1 else s4.emit .REASON reasoning1)
            else s4
          { err := none, sink := s5, messages := msgs, streamCalls := i + 1 }
        else
          let s5 :=
            if reasoning1 != "" then
              (if s3.silent then s3.emitLog .REASON reasoning1 else s3.emit .REASON reasoning1)
            else s3
          let msgs1 := msgs ++ [{ role := "assistant", content := fullText, toolCalls := toolCalls }]
          let sm := toolCalls.foldl (processToolCall env skills) (s5, msgs1)
          runLoop env skills n (i + 1) sm.2 sm.1

/-- Embeds one full session as driven by the CLI: create the sink, write the
session header (a no-op unless logging), then run `session.Run`. -/
def sessionRun (env : RunEnv) (silent logEnabled : Bool)
    (systemPrompt userPrompt : String) (skills : List Skill) : RunResult :=
  let s0 : SinkState := { silent := silent, logEnabled := logEnabled }
  runLoop env skills maxToolIterations 0
    (buildMessages systemPrompt userPrompt skills) s0.writeHeader

/-- Tool calls collected from a stream's events, as accumulated by the
consumption loop of `session.Run`. -/
def collectedToolCalls (evs : List StreamEvent) : List ToolCall :=
  evs.foldl (fun acc ev => if !ev.toolCalls.isEmpty then acc ++ ev.toolCalls else acc) []

/-- A stream-call outcome that opens successfully, delivers no error event,
and collects at least one tool call, i.e. an iteration that does not end in a
text-only response. -/
def iterToolCallsOnly (r : Except String (List StreamEvent)) : Prop :=
  ∃ evs, r = .ok evs ∧ (∀ ev ∈ evs, ev.error = none) ∧ collectedToolCalls evs ≠ []

/-- Concatenation of streamed text chunks. -/
def concatStrings (l : List String) : String := l.foldl (· ++ ·) ""

/-- A provider script whose every stream call yields exactly one tool call
(no text-only response), used to exercise the iteration cap. -/
def toolLoopEnv : RunEnv :=
  { streams := fun _ => .ok [toolCallsEvent [{ name := "frob" }]],
    parseTerminalArgs := fun _ => .error "terminal tool requires command",
    execTerminal := fun _ => ("", none) }

/-- A terminal execution that hits the 30s deadline with partial output. -/
def timeoutOutcome : ExecOutcome := { output := "partial", deadlineExceeded := true }

/-- Environment whose terminal executor reports the timed-out execution. -/
def timeoutEnv : RunEnv :=
  { streams := fun _ => .ok [],
    parseTerminalArgs := fun _ => .ok "sleep 60",
    execTerminal := fun _ => runTerminalCommand timeoutOutcome }

/-- Provider script of the silent+log scenario: two AI chunks and a final
text-only response. -/
def silentLogEnv : RunEnv :=
  { streams := fun _ => .ok [textEvent "a", textEvent "b", doneEvent],
    parseTerminalArgs := fun _ => .error "terminal tool requires command",
    execTerminal := fun _ => ("", none) }

/-! ## Config file format (internal/config/config.go)

Strings are modelled at character level (`List Char`).  `strconv.Quote` and
`strconv.Unquote` are embedded below; the printability predicate of Quote is
restricted to ASCII-graphic characters, so the embedded Quote escapes
printable non-ASCII characters as \uXXXX where Go would emit them raw — both
spellings Unquote to the same character, leaving parse-of-serialize intact.
Byte-valued \xHH escapes with HH ≥ 0x80 (never produced by Quote) are read
as the corresponding code point. -/

/-- The single-quote character (avoids a quoted-apostrophe literal). -/
def singleQuote : Char := Char.ofNat 39

/-- The backslash character. -/
def backslash : Char := Char.ofNat 92

/-- Lower-case hexadecimal digit characters, as used by strconv. -/
def hexDigitChar (n : Nat) : Char := "0123456789abcdef".data.getD n '0'

/-- Big-endian fixed-width hexadecimal rendering. -/
def toHexN : Nat → Nat → List Char
  | 0, _ => []
  | Nat.succ k, v => hexDigitChar (v / 16 ^ k) :: toHexN k (v % 16 ^ k)

/-- Value of one hexadecimal digit. -/
def unhexDigit (c : Char) : Option Nat :=
  if '0' ≤ c ∧ c ≤ '9' then some (c.toNat - '0'.toNat)
  else if 'a' ≤ c ∧ c ≤ 'f' then some (c.toNat - 'a'.toNat + 10)
  else if 'A' ≤ c ∧ c ≤ 'F' then some (c.toNat - 'A'.toNat + 10)
  else none

/-- Consume exactly `n` hexadecimal digits, accumulating their value. -/
def parseHexN : Nat → Nat → List Char → Option (Nat × List Char)
  | 0, acc, l => some (acc, l)
  | Nat.succ _, _, [] => none
  | Nat.succ k, acc, c :: rest =>
    match unhexDigit c with
    | some d => parseHexN k (acc * 16 + d) rest
    | none => none

/-- Value of one octal digit. -/
def octDigit (c : Char) : Option Nat :=
  if '0' ≤ c ∧ c ≤ '7' then some (c.toNat - '0'.toNat) else none

/-- Character for a decoded \u or \U escape value: surrogate halves encode
as U+FFFD, mirroring Go's utf8.EncodeRune. -/
def runeOfNat (v : Nat) : Char :=
  if 0xD800 ≤ v ∧ v ≤ 0xDFFF then Char.ofNat 0xFFFD else Char.ofNat v

/-- Printability predicate of the embedded Quote: ASCII graphic characters
(see the section comment for the deviation from Go's unicode.IsPrint). -/
def asciiIsPrint (c : Char) : Bool := 0x20 ≤ c.toNat && c.toNat ≤ 0x7E

/-- Escape of one character inside a double-quoted literal, following
strconv.Quote's appendEscapedRune. -/
def quoteChar (c : Char) : List Char :=
  if c = '"' ∨ c = backslash then [backslash, c]
  else if asciiIsPrint c then [c]
  else if c.toNat = 7 then [backslash, 'a']
  else if c.toNat = 8 then [backslash, 'b']
  else if c.toNat = 12 then [backslash, 'f']
  else if c.toNat = 10 then [backslash, 'n']
  else if c.toNat = 13 then [backslash, 'r']
  else if c.toNat = 9 then [backslash, 't']
  else if c.toNat = 11 then [backslash, 'v']
  else if c.toNat < 0x20 ∨ c.toNat = 0x7F then backslash :: 'x' :: toHexN 2 c.toNat
  else if c.toNat < 0x10000 then backslash :: 'u' :: toHexN 4 c.toNat
  else backslash :: 'U' :: toHexN 8 c.toNat

/-- Embeds strconv.Quote: a double-quoted literal with every character
escaped as needed. -/
def goQuote (l : List Char) : List Char :=
  '"' :: (l.map quoteChar).flatten ++ ['"']

/-- Escape switch of strconv.UnquoteChar: decode the sequence after a
backslash. -/
def unquoteEscape (q : Char) : List Char → Option (Char × List Char)
  | [] => none
  | e :: rest2 =>
    if e = 'a' then some (Char.ofNat 7, rest2)
    else if e = 'b' then some (Char.ofNat 8, rest2)
    else if e = 'f' then some (Char.ofNat 12, rest2)
    else if e = 'n' then some (Char.ofNat 10, rest2)
    else if e = 'r' then some (Char.ofNat 13, rest2)
    else if e = 't' then some (Char.ofNat 9, rest2)
    else if e = 'v' then some (Char.ofNat 11, rest2)
    else if e = backslash then some (backslash, rest2)
    else if e = '"' ∨ e = singleQuote then
      (if e = q then some (e, rest2) else none)
    else if e = 'x' then
      match parseHexN 2 0 rest2 with
      | some (v, rest3) => some (Char.ofNat v, rest3)
      | none => none
    else if e = 'u' then
      match parseHexN 4 0 rest2 with
      | some (v, rest3) => some (runeOfNat v, rest3)
      | none => none
    else if e = 'U' then
      match parseHexN 8 0 rest2 with
      | some (v, rest3) =>
        if v ≤ 0x10FFFF then some (runeOfNat v, rest3) else none
      | none => none
    else
      match octDigit e, rest2 with
      | some d0, c1 :: c2 :: rest3 =>
        (match octDigit c1, octDigit c2 with
         | some d1, some d2 =>
           let v := d0 * 64 + d1 * 8 + d2
           if v ≤ 255 then some (Char.ofNat v, rest3) else none
         | _, _ => none)
      | _, _ => none

/-- Embeds strconv.UnquoteChar for quote character `q`: decode one character
or escape sequence from the head of the list. -/
def unquoteChar (q : Char) : List Char → Option (Char × List Char)
  | [] => none
  | c :: rest =>
    if c = q then none
    else if c ≠ backslash then some (c, rest)
    else unquoteEscape q rest

/-- Decode the inner characters of a quoted literal.  Each step consumes at
least one character, so fuel equal to the remaining length suffices. -/
def unquoteLoop (q : Char) : Nat → List Char → Option (List Char)
  | _, [] => some []
  | 0, _ :: _ => none
  | Nat.succ fuel, c :: cs =>
    match unquoteChar q (c :: cs) with
    | none => none
    | some (d, rest) =>
      match unquoteLoop q fuel rest with
      | none => none
      | some ds => some (d :: ds)

/-- Embeds strconv.Unquote for double- and single-quoted literals (the only
forms config.Load passes to it): matching quote characters at both ends, no
raw newline, escapes decoded; a single-quoted literal holds exactly one
character. -/
def goUnquote : List Char → Option (List Char)
  | [] => none
  | q :: rest =>
    if q ≠ '"' ∧ q ≠ singleQuote then none
    else
      match rest.getLast? with
      | none => none
      | some last =>
        if last ≠ q then none
        else
          let inner := rest.dropLast
          if '\n' ∈ inner then none
          else if q = '"' then unquoteLoop q inner.length inner
          else
            match unquoteChar q inner with
            | some (c, []) => some [c]
            | _ => none

/-- Embeds bufio's dropCR: strip one trailing carriage return. -/
def dropCR (l : List Char) : List Char :=
  match l.getLast? with
  | some c => if c = '\r' then l.dropLast else l
  | none => l

/-- Default token cap of bufio.Scanner: MaxScanTokenSize, 64 KiB. -/
def maxScanTokenSize : Nat := 65536

/-- UTF-8 encoded length of one rune; the scanner counts bytes, not runes. -/
def utf8CharLen (c : Char) : Nat :=
  if c.toNat < 128 then 1
  else if c.toNat < 2048 then 2
  else if c.toNat < 65536 then 3
  else 4

/-- UTF-8 byte length of a rune list. -/
def byteLen (l : List Char) : Nat := (l.map utf8CharLen).sum

/-- Worker of the line scanner: split at newlines, accumulate the current
line. Once a line fills the scanner's 64 KiB buffer before its newline
arrives, Scan stops and the scanner reports ErrTooLong: the Bool component
records that error, and no further lines are produced. -/
def splitLinesGo : List Char → List Char → List (List Char) × Bool
  | acc, [] =>
    if maxScanTokenSize ≤ byteLen acc then ([], true)
    else if acc.isEmpty then ([], false)
    else ([dropCR acc], false)
  | acc, c :: cs =>
    if maxScanTokenSize ≤ byteLen acc then ([], true)
    else if c = '\n' then
      let r := splitLinesGo [] cs
      (dropCR acc :: r.1, r.2)
    else splitLinesGo (acc ++ [c]) cs

/-- Embeds bufio.Scanner with ScanLines over the file contents: the scanned
lines, and whether the scan ended with ErrTooLong. -/
def splitLines (l : List Char) : List (List Char) × Bool := splitLinesGo [] l

/-- Association list with Go map assignment semantics: update in place, or
append a fresh key. -/
def mapSet : List (List Char × List Char) → List Char → List Char →
    List (List Char × List Char)
  | [], k, v => [(k, v)]
  | (k0, v0) :: rest, k, v =>
    if k0 = k then (k0, v) :: rest else (k0, v0) :: mapSet rest k v

/-- Map lookup. -/
def mapGet : List (List Char × List Char) → List Char → Option (List Char)
  | [], _ => none
  | (k0, v0) :: rest, k => if k0 = k then some v0 else mapGet rest k

/-- Embeds strings.SplitN(line, "=", 2): the parts before and after the
first '=', or none when the line has no '='. -/
def splitEq : List Char → Option (List Char × List Char)
  | [] => none
  | c :: cs =>
    if c = '=' then some ([], cs)
    else
      match splitEq cs with
      | some (a, b) => some (c :: a, b)
      | none => none

/-- Key/value handling of config.Load after the SplitN: trim both parts,
reject an empty key, unquote a value opening with a quote. -/
def parseKV (rawKey rawVal0 : List Char) : Except String (Option (List Char × List Char)) :=
  let key := trimSpaceCl rawKey
  let rawValue := trimSpaceCl rawVal0
  if key.isEmpty then .error "invalid config line: empty key"
  else if hasPrefixCl rawValue "\"".data || hasPrefixCl rawValue [singleQuote] then
    match goUnquote rawValue with
    | some v => .ok (some (key, v))
    | none => .error "invalid config line: bad quoting"
  else .ok (some (key, rawValue))

/-- Embeds the per-line handling of config.Load: skip blanks and comments,
split at the first '=', trim, unquote values starting with a quote; the
line-numbered error text is abstracted to a fixed message. -/
def parseConfigLine (line : List Char) : Except String (Option (List Char × List Char)) :=
  let t := trimSpaceCl line
  if t.isEmpty || hasPrefixCl t "#".data then .ok none
  else
    match splitEq t with
    | none => .error "invalid config line"
    | some (rawKey, rawVal0) => parseKV rawKey rawVal0

/-- Line loop of config.Load. -/
def loadLines : List (List Char) → List (List Char × List Char) →
    Except String (List (List Char × List Char))
  | [], values => .ok values
  | line :: rest, values =>
    match parseConfigLine line with
    | .error e => .error e
    | .ok none => loadLines rest values
    | .ok (some (k, v)) => loadLines rest (mapSet values k v)

/-- Embeds config.Load on file contents (an absent file is the empty
contents): process the lines the scanner produced, then surface the
scanner's own error, as Load checks scanner.Err() after the loop. -/
def configLoad (content : List Char) : Except String (List (List Char × List Char)) :=
  match loadLines (splitLines content).1 [] with
  | .error e => .error e
  | .ok values =>
    if (splitLines content).2 then .error "bufio.Scanner: token too long"
    else .ok values

/-- Key order used by save (sort.Strings): code-point lexicographic order,
which coincides with Go's bytewise UTF-8 order. -/
def keyLe (a b : List Char × List Char) : Prop := String.mk a.1 ≤ String.mk b.1

instance : DecidableRel keyLe := fun a b =>
  inferInstanceAs (Decidable (String.mk a.1 ≤ String.mk b.1))

/-- The line save renders for one entry: key = "quoted value". -/
def configLine (kv : List Char × List Char) : List Char :=
  kv.1 ++ " = ".data ++ goQuote kv.2

/-- Entries in save's key order. -/
def configSortedEntries (values : List (List Char × List Char)) :
    List (List Char × List Char) :=
  values.insertionSort keyLe

/-- Embeds config.save: one `key = "value"` line per entry, sorted by key,
each line terminated by a newline. -/
def configSave (values : List (List Char × List Char)) : List Char :=
  ((configSortedEntries values).map (fun kv => configLine kv ++ ['\n'])).flatten

/-- Embeds config.Set: reject an all-space key, load, assign, save. -/
def configSet (content : List Char) (k v : List Char) : Except String (List Char) :=
  if (trimSpaceCl k).isEmpty then .error "config key cannot be empty"
  else
    match configLoad content with
    | .error e => .error e
    | .ok values => .ok (configSave (mapSet values k v))

/-- Keys that survive the config round trip: non-empty, invariant under
TrimSpace, free of '=' and of newlines, and not opening a '#' comment.
Every key produced by a successful Load has this shape. -/
def wellFormedKey (k : List Char) : Prop :=
  k ≠ [] ∧ trimSpaceCl k = k ∧ '=' ∉ k ∧ '\n' ∉ k ∧ ¬(hasPrefixCl k "#".data = true)

instance (k : List Char) : Decidable (wellFormedKey k) := by
  unfold wellFormedKey; infer_instance

/-! ## Anthropic tool-use scenario (spec section 8, scenario 2) -/

/-- The SSE lines of the spec's Anthropic tool-call scenario: a
content_block_start declaring a tool_use block named get_weather, an
input_json_delta producing the argument JSON, content_block_stop, then
message_stop. -/
def anthropicToolScenarioLines : List String :=
  ["event: message_start",
   "data: \x7b\"type\":\"message_start\"\x7d",
   "",
   "event: content_block_start",
   "data: \x7b\"type\":\"content_block_start\",\"index\":0,\"content_block\":\x7b\"type\":\"tool_use\",\"id\":\"toolu_1\",\"name\":\"get_weather\"\x7d\x7d",
   "",
   "event: content_block_delta",
   "data: \x7b\"type\":\"content_block_delta\",\"index\":0,\"delta\":\x7b\"type\":\"input_json_delta\",\"partial_json\":\"\x7b\\\"city\\\":\\\"Paris\\\"\x7d\"\x7d\x7d",
   "",
   "event: content_block_stop",
   "data: \x7b\"type\":\"content_block_stop\",\"index\":0\x7d",
   "",
   "event: message_stop",
   "data: \x7b\"type\":\"message_stop\"\x7d"]

/-- Decoder for the content_block_delta payload of the scenario, mirroring
what `json.Unmarshal` produces for it: an input_json_delta carrying the
partial JSON of the tool arguments. -/
def anthropicScenarioDecDelta (payload : String) : Option AnthropicDeltaEvent :=
  if payload = "\x7b\"type\":\"content_block_delta\",\"index\":0,\"delta\":\x7b\"type\":\"input_json_delta\",\"partial_json\":\"\x7b\\\"city\\\":\\\"Paris\\\"\x7d\"\x7d\x7d" then
    some { type := "input_json_delta", pjson := "\x7b\"city\":\"Paris\"\x7d" }
  else none


/-! ## Helper lemmas about terminal-last traces -/

theorem terminalLast_nil : terminalLast [] := by
  intro ev hm; simp at hm

theorem terminalLast_single (e : StreamEvent) : terminalLast [e] := by
  intro ev hm; simp at hm

theorem terminalLast_cons {a : StreamEvent} {l : List StreamEvent}
    (h : isTerminal a = false) (hl : terminalLast l) : terminalLast (a :: l) := by
  cases l with
  | nil => exact terminalLast_single a
  | cons b l' =>
    intro ev hm
    rw [List.dropLast_cons₂] at hm
    rcases List.mem_cons.mp hm with rfl | hm'
    · exact h
    · exact hl ev hm'

theorem terminalLast_append {l₁ l₂ : List StreamEvent}
    (h₁ : ∀ e ∈ l₁, isTerminal e = false) (h₂ : terminalLast l₂) :
    terminalLast (l₁ ++ l₂) := by
  cases l₂ with
  | nil =>
    intro ev hm
    simp only [List.append_nil] at hm
    exact h₁ ev (List.dropLast_subset _ hm)
  | cons b l' =>
    intro ev hm
    rw [List.dropLast_append_of_ne_nil _ (by simp)] at hm
    rcases List.mem_append.mp hm with hm' | hm'
    · exact h₁ ev hm'
    · exact h₂ ev hm'

theorem flushToolCalls_not_terminal (acc : List (Int × ChatToolAcc)) :
    ∀ e ∈ flushToolCalls acc, isTerminal e = false := by
  intro e he
  simp only [flushToolCalls, List.mem_filterMap] at he
  obtain ⟨p, _, hp⟩ := he
  split at hp
  · cases hp; rfl
  · cases hp

theorem toolCallsEventMap_not_terminal (tcs : List ToolCall) :
    ∀ e ∈ tcs.map (fun tc => toolCallsEvent [tc]), isTerminal e = false := by
  intro e he
  simp only [List.mem_map] at he
  obtain ⟨tc, _, rfl⟩ := he
  rfl

/-! ## Terminal-last property of every streaming parser -/

theorem anthropicReadSSE_terminalLast (cancel : Nat → Bool)
    (decDelta : String → Option AnthropicDeltaEvent) (decError : String → Option String) :
    ∀ lines n cur scanErr,
      terminalLast (anthropicReadSSE cancel decDelta decError n cur lines scanErr) := by
  intro lines
  induction lines with
  | nil =>
    intro n cur scanErr
    cases scanErr
    · exact terminalLast_nil
    · exact terminalLast_single _
  | cons line rest ih =>
    intro n cur scanErr
    simp only [anthropicReadSSE]
    repeat' split
    all_goals
      first
        | exact terminalLast_nil
        | exact terminalLast_single _
        | exact ih _ _ _
        | exact terminalLast_cons rfl (ih _ _ _)

theorem openAIReadSSE_terminalLast (cancel : Nat → Bool) (dec : String → Option RespEvent) :
    ∀ lines n scanErr, terminalLast (openAIReadSSE cancel dec n lines scanErr) := by
  intro lines
  induction lines with
  | nil =>
    intro n scanErr
    cases scanErr
    · exact terminalLast_nil
    · exact terminalLast_single _
  | cons line rest ih =>
    intro n scanErr
    simp only [openAIReadSSE]
    repeat' split
    all_goals
      first
        | exact terminalLast_single _
        | exact ih _ _
        | exact terminalLast_cons rfl (ih _ _)

theorem copilotReadResponsesSSE_terminalLast (cancel : Nat → Bool)
    (dec : String → Option RespEvent) :
    ∀ lines n scanErr, terminalLast (copilotReadResponsesSSE cancel dec n lines scanErr) := by
  intro lines
  induction lines with
  | nil =>
    intro n scanErr
    cases scanErr
    · exact terminalLast_nil
    · exact terminalLast_single _
  | cons line rest ih =>
    intro n scanErr
    simp only [copilotReadResponsesSSE]
    repeat' split
    all_goals
      first
        | exact terminalLast_single _
        | exact ih _ _
        | exact terminalLast_cons rfl (ih _ _)

theorem copilotReadChatSSE_terminalLast (cancel : Nat → Bool)
    (dec : String → Option ChatChunkDelta) :
    ∀ lines n acc scanErr, terminalLast (copilotReadChatSSE cancel dec n acc lines scanErr) := by
  intro lines
  induction lines with
  | nil =>
    intro n acc scanErr
    cases scanErr
    · exact terminalLast_nil
    · exact terminalLast_single _
  | cons line rest ih =>
    intro n acc scanErr
    simp only [copilotReadChatSSE]
    repeat' split
    all_goals
      first
        | exact terminalLast_single _
        | exact ih _ _ _
        | exact terminalLast_cons rfl (ih _ _ _)
        | exact terminalLast_append (flushToolCalls_not_terminal _) (terminalLast_single _)
        | exact terminalLast_append (flushToolCalls_not_terminal _) (ih _ _ _)
        | exact terminalLast_cons rfl
            (terminalLast_append (flushToolCalls_not_terminal _) (ih _ _ _))

theorem googleReadChunks_terminalLast (cancel : Nat → Bool) :
    ∀ chunks n, terminalLast (googleReadChunks cancel n chunks) := by
  intro chunks
  induction chunks with
  | nil => intro n; exact terminalLast_single _
  | cons c cs ih =>
    intro n
    simp only [googleReadChunks]
    repeat' split
    all_goals
      first
        | exact terminalLast_single _
        | exact terminalLast_append (toolCallsEventMap_not_terminal _) (ih _)
        | exact terminalLast_cons rfl
            (terminalLast_append (toolCallsEventMap_not_terminal _) (ih _))

theorem anthropicReadSSE_no_toolCalls (cancel : Nat → Bool)
    (decDelta : String → Option AnthropicDeltaEvent) (decError : String → Option String) :
    ∀ lines n cur scanErr,
      (anthropicReadSSE cancel decDelta decError n cur lines scanErr).all
        (fun ev => ev.toolCalls.isEmpty) = true := by
  intro lines
  induction lines with
  | nil =>
    intro n cur scanErr
    cases scanErr <;> rfl
  | cons line rest ih =>
    intro n cur scanErr
    simp only [anthropicReadSSE]
    repeat' split
    all_goals
      first
        | rfl
        | exact ih _ _ _

end RunAI

namespace RunAI

/-! ## Theorems for claims C2, C5, C6 -/

/-- Claim C2, counterexample: for the model ID gpt-99999999999999999999 the
spec's predicate (match of `^gpt-(\d+)` with N ≥ 5, not gpt-5-mini) selects
the Responses API, but the code returns false because `strconv.Atoi`
overflows a 64-bit int. -/
theorem shouldUseResponsesAPI_overflow_cex :
    shouldUseResponsesAPI "gpt-99999999999999999999" = false ∧
    specShouldUseResponsesAPI "gpt-99999999999999999999" = true := by
  constructor <;> decide

/-- Claim C2, amended: `shouldUseResponsesAPI` selects the Responses API
exactly when the ID matches `^gpt-(\d+)` with the digits parsing as a 64-bit
int N ≥ 5 and the ID does not start with gpt-5-mini; in particular
gpt-5-mini ↦ false, gpt-5 ↦ true, claude-* ↦ false, gpt-4 ↦ false. -/
theorem shouldUseResponsesAPI_spec :
    (∀ modelID, shouldUseResponsesAPI modelID = amendedShouldUseResponsesAPI modelID) ∧
    shouldUseResponsesAPI "gpt-5-mini" = false ∧
    shouldUseResponsesAPI "gpt-5" = true ∧
    (∀ rest, shouldUseResponsesAPI ("claude-" ++ rest) = false) ∧
    shouldUseResponsesAPI "gpt-4" = false := by
  refine ⟨?_, by decide, by decide, ?_, by decide⟩
  · intro m
    unfold shouldUseResponsesAPI amendedShouldUseResponsesAPI goAtoi
    cases gptVersionDigits m with
    | none => rfl
    | some ds =>
      simp only []
      by_cases h : digitsToNat ds ≤ maxGoInt
      · simp [h]
      · simp [h]
  · intro rest
    have hd : ("claude-" ++ rest).data = "claude-".data ++ rest.data := by
      simp [String.data_append]
    unfold shouldUseResponsesAPI gptVersionDigits
    simp [hd]

/-- Claim C6: the Copilot adapter always sends `x-initiator: user`, for every
token and independently of the request messages; the spec (backed by the
repository's own Copilot implementation document) requires "agent" whenever
the last inbound message is not a user turn, as in the conversation
[user, assistant] evaluated here. -/
theorem copilot_x_initiator_always_user :
    (∀ token, headerValue (copilotSetHeaders token) "x-initiator" = some "user") ∧
    specXInitiator [{ role := "user", content := "hi" },
                    { role := "assistant", content := "ok" }] = "agent" := by
  exact ⟨fun _ => rfl, rfl⟩

/-- Claim C5: with device interval 5 and token responses slow_down(interval=7)
then slow_down(interval=0), the code's third sleep is 10.5s (original device
interval 5 + 5, plus the 500ms margin) whereas the spec's rule (previous
interval 7 + 5) requires at least 12.5s; the first two sleeps (5.5s, 7.5s)
agree with the spec, confirming the positive-server-interval branch and the
500ms margin. -/
theorem deviceAuth_slow_down_uses_device_interval :
    deviceAuthSleepTraceMs 5
      [{ error := "slow_down", interval := 7 },
       { error := "slow_down", interval := 0 },
       { error := "authorization_pending" }] = [5500, 7500, 10500] ∧
    specDeviceAuthSleepTraceMs 5
      [{ error := "slow_down", interval := 7 },
       { error := "slow_down", interval := 0 },
       { error := "authorization_pending" }] = [5500, 7500, 12500] ∧
    (10500 : Int) < 12500 := by
  refine ⟨by decide, by decide, by decide⟩


/-- Claim C7: for every provider stream parser (Anthropic, OpenAI Responses,
Copilot Responses, Copilot Chat, Google) and every input — all line streams,
cancellation patterns, decoder behaviours (including malformed payloads) and
scanner errors — once a done or error event is in the trace, no further event
of any kind follows it. -/
theorem stream_parsers_terminal_event_is_last :
    (∀ cancel decDelta decError n cur lines scanErr,
      terminalLast (anthropicReadSSE cancel decDelta decError n cur lines scanErr)) ∧
    (∀ cancel dec n lines scanErr,
      terminalLast (openAIReadSSE cancel dec n lines scanErr)) ∧
    (∀ cancel dec n lines scanErr,
      terminalLast (copilotReadResponsesSSE cancel dec n lines scanErr)) ∧
    (∀ cancel dec n acc lines scanErr,
      terminalLast (copilotReadChatSSE cancel dec n acc lines scanErr)) ∧
    (∀ cancel start chunks,
      terminalLast (googleReadStream cancel start chunks)) := by
  refine ⟨?_, ?_, ?_, ?_, ?_⟩
  · intro cancel decDelta decError n cur lines scanErr
    exact anthropicReadSSE_terminalLast cancel decDelta decError lines n cur scanErr
  · intro cancel dec n lines scanErr
    exact openAIReadSSE_terminalLast cancel dec lines n scanErr
  · intro cancel dec n lines scanErr
    exact copilotReadResponsesSSE_terminalLast cancel dec lines n scanErr
  · intro cancel dec n acc lines scanErr
    exact copilotReadChatSSE_terminalLast cancel dec lines n acc scanErr
  · intro cancel start chunks
    cases start with
    | tokenErr e => exact terminalLast_single _
    | notArray => exact terminalLast_single _
    | ok => exact googleReadChunks_terminalLast cancel chunks 0

/-- Claim C1: the Anthropic streaming parser NEVER emits a tool_calls event —
for every input, every event of its trace carries an empty tool-call list —
and on the spec's get_weather scenario (content_block_start of a tool_use
block, input_json_delta deltas producing the Paris JSON, content_block_stop,
message_stop) the whole trace is a single done event, so no tool_calls event
for get_weather is ever delivered, contradicting the accumulate-and-emit
behaviour the spec describes. -/
theorem anthropic_stream_never_emits_tool_calls :
    (∀ cancel decDelta decError n cur lines scanErr,
      (anthropicReadSSE cancel decDelta decError n cur lines scanErr).all
        (fun ev => ev.toolCalls.isEmpty) = true) ∧
    anthropicReadSSE (fun _ => false) anthropicScenarioDecDelta (fun _ => none)
      0 "" anthropicToolScenarioLines none = [doneEvent] := by
  constructor
  · intro cancel decDelta decError n cur lines scanErr
    exact anthropicReadSSE_no_toolCalls cancel decDelta decError lines n cur scanErr
  · decide

/-! ## Session runner lemmas (claims C3, C4, C9) -/

theorem runLoop_streamCalls_le (env : RunEnv) (skills : List Skill) :
    ∀ fuel i msgs s, (runLoop env skills fuel i msgs s).streamCalls ≤ i + fuel := by
  intro fuel
  induction fuel with
  | zero => intro i msgs s; simp [runLoop]
  | succ n ih =>
    intro i msgs s
    simp only [runLoop]
    cases env.streams i with
    | error e => simp
    | ok evs =>
      simp only []
      cases consumeStream s "" "" [] false evs with
      | errored s1 e => simp
      | finished s1 ft rs tcs streaming =>
        simp only []
        by_cases htc : tcs.isEmpty
        · simp [htc]
        · simp only [htc, if_neg, Bool.false_eq_true, if_false]
          calc (runLoop env skills n (i + 1) _ _).streamCalls ≤ (i + 1) + n := ih (i + 1) _ _
            _ ≤ i + (n + 1) := by omega

theorem collect_foldl_shift (evs : List StreamEvent) :
    ∀ tcs, evs.foldl
        (fun acc ev => if !ev.toolCalls.isEmpty then acc ++ ev.toolCalls else acc) tcs
      = tcs ++ collectedToolCalls evs := by
  induction evs with
  | nil => intro tcs; simp [collectedToolCalls]
  | cons ev evs ih =>
    intro tcs
    simp only [collectedToolCalls, List.foldl_cons]
    by_cases h : ev.toolCalls.isEmpty
    · simp only [h, Bool.not_true, Bool.false_eq_true, if_false]
      exact ih tcs
    · simp only [h, Bool.not_false, if_true]
      rw [ih (tcs ++ ev.toolCalls), ih ([] ++ ev.toolCalls)]
      simp [List.append_assoc]

theorem consumeStream_no_error (evs : List StreamEvent)
    (h : ∀ ev ∈ evs, ev.error = none) :
    ∀ s ft rs tcs streaming, ∃ s' ft' rs' streaming',
      consumeStream s ft rs tcs streaming evs
        = .finished s' ft' rs' (tcs ++ collectedToolCalls evs) streaming' := by
  induction evs with
  | nil =>
    intro s ft rs tcs streaming
    exact ⟨s, ft, rs, streaming, by simp [consumeStream, collectedToolCalls]⟩
  | cons ev evs ih =>
    intro s ft rs tcs streaming
    have hev : ev.error = none := h ev (by simp)
    have h' : ∀ e ∈ evs, e.error = none := fun e he => h e (List.mem_cons_of_mem _ he)
    have ihx := ih h'
    simp only [consumeStream, hev]
    have hc : collectedToolCalls (ev :: evs)
        = (if !ev.toolCalls.isEmpty then ev.toolCalls else []) ++ collectedToolCalls evs := by
      simp only [collectedToolCalls, List.foldl_cons]
      by_cases htc : ev.toolCalls.isEmpty
      · simp [htc]
      · simp only [htc, Bool.not_false, if_true, List.nil_append]
        exact collect_foldl_shift evs ev.toolCalls
    by_cases htc : ev.toolCalls.isEmpty
    · simp only [htc, Bool.not_true, Bool.false_eq_true, if_false]
      obtain ⟨s', ft', rs', streaming', heq⟩ := ihx _ _ _ tcs _
      refine ⟨s', ft', rs', streaming', ?_⟩
      rw [heq, hc]
      simp [htc]
    · simp only [htc, Bool.not_false, if_true]
      obtain ⟨s', ft', rs', streaming', heq⟩ := ihx _ _ _ (tcs ++ ev.toolCalls) _
      refine ⟨s', ft', rs', streaming', ?_⟩
      rw [heq, hc]
      simp [htc, List.append_assoc]

theorem runLoop_exhaustion (env : RunEnv) (skills : List Skill) :
    ∀ fuel i msgs s,
      (∀ j, i ≤ j → j < i + fuel → iterToolCallsOnly (env.streams j)) →
      (runLoop env skills fuel i msgs s).err = some "exceeded 10 tool call iterations" ∧
      ∃ pre, (runLoop env skills fuel i msgs s).sink.console
          = pre ++ ("[" ++ EventKind.tag .ERR ++ "] " ++
              "maximum tool call iterations reached" ++ "\n") := by
  intro fuel
  induction fuel with
  | zero =>
    intro i msgs s _
    refine ⟨rfl, s.console, ?_⟩
    simp [runLoop, SinkState.emit]
  | succ n ih =>
    intro i msgs s H
    obtain ⟨evs, heq, hnoerr, hne⟩ := H i (Nat.le_refl i) (by omega)
    obtain ⟨s', ft', rs', streaming', hcons⟩ := consumeStream_no_error evs hnoerr s "" "" [] false
    have hne' : ¬ (([] ++ collectedToolCalls evs).isEmpty = true) := by
      simpa [List.isEmpty_iff] using hne
    simp only [runLoop, heq, hcons]
    simp only [hne', if_false]
    exact ih (i + 1) _ _ (fun j hj1 hj2 => H j (by omega) (by omega))


/-- Claim C3: the Runner issues at most 10 provider stream calls per session;
and when all 10 iterations collect tool calls (stream opens, no error event,
at least one tool call, hence no text-only response), the run returns the
iteration error and the console ends with the ERR record "maximum tool call
iterations reached". -/
theorem runner_bounded_iterations :
    (∀ env skills silent logEnabled sys user,
      (sessionRun env silent logEnabled sys user skills).streamCalls ≤ maxToolIterations) ∧
    (∀ env skills silent logEnabled sys user,
      (∀ i, i < maxToolIterations → iterToolCallsOnly (env.streams i)) →
      (sessionRun env silent logEnabled sys user skills).err
          = some "exceeded 10 tool call iterations" ∧
      ∃ pre, (sessionRun env silent logEnabled sys user skills).sink.console
          = pre ++ ("[" ++ EventKind.tag .ERR ++ "] " ++
              "maximum tool call iterations reached" ++ "\n")) := by
  constructor
  · intro env skills silent logEnabled sys user
    exact runLoop_streamCalls_le env skills maxToolIterations 0 _ _
  · intro env skills silent logEnabled sys user H
    exact runLoop_exhaustion env skills maxToolIterations 0 _ _
      (fun j _ hj => H j (by omega))

/-- Claim C3 witness: with a provider answering every stream with one tool
call, the embedded session exhausts the cap. -/
theorem runner_bounded_iterations_witness :
    (∀ i, i < maxToolIterations → iterToolCallsOnly (toolLoopEnv.streams i)) ∧
    (sessionRun toolLoopEnv false false "" "go" []).err
        = some "exceeded 10 tool call iterations" ∧
    ∃ pre, (sessionRun toolLoopEnv false false "" "go" []).sink.console
        = pre ++ ("[" ++ EventKind.tag .ERR ++ "] " ++
            "maximum tool call iterations reached" ++ "\n") := by
  have H : ∀ i, i < maxToolIterations → iterToolCallsOnly (toolLoopEnv.streams i) :=
    fun i _ => ⟨[toolCallsEvent [{ name := "frob" }]], rfl, by decide, by decide⟩
  obtain ⟨h1, h2⟩ := runner_bounded_iterations.2 toolLoopEnv [] false false "" "go" H
  exact ⟨H, h1, h2⟩

/-- Claim C9: a failed terminal execution (timeout or non-zero exit) still
returns the captured partial output alongside the error; and the Runner's
tool-call handling then emits the ERR annotation and the OUT partial output
and feeds a tool message containing both back into the conversation. -/
theorem terminal_tool_failure_keeps_partial_output :
    (∀ o : ExecOutcome, o.deadlineExceeded = true ∨ o.runError ≠ none →
      (runTerminalCommand o).1 = o.output ∧ (runTerminalCommand o).2 ≠ none) ∧
    (∀ (env : RunEnv) (skills : List Skill) (s : SinkState) (msgs : List Message)
        (tc : ToolCall) (cmd r e : String),
      tc.name = "terminal" →
      env.parseTerminalArgs tc.arguments = Except.ok cmd →
      env.execTerminal cmd = (r, some e) →
      r ≠ "" →
      processToolCall env skills (s, msgs) tc =
        (((s.emit .CMD cmd).emit .ERR ("tool error: " ++ e)).emit .OUT r,
         msgs ++ [{ role := "tool",
                    content := "[" ++ tc.name ++ " result]\n" ++ ("tool error: " ++ e)
                        ++ "\n" ++ r,
                    toolCallID := tc.id }])) := by
  constructor
  · intro o ho
    by_cases hd : o.deadlineExceeded
    · simp [runTerminalCommand, hd]
    · rcases ho with ho | ho
      · exact absurd ho hd
      · cases he : o.runError with
        | none => exact absurd he ho
        | some e => simp [runTerminalCommand, hd, he]
  · intro env skills s msgs tc cmd r e hname hparse hexec hr
    have hterm : tc.name = terminalToolName := hname
    simp only [processToolCall, hterm, if_pos, hparse]
    simp only [processToolCallExec, executeToolCall, hterm, if_pos, hparse, hexec]
    simp [hr, hname]

/-- Claim C9 witness: a timed-out `sleep 60` with partial output "partial":
the pair returned carries the output, and the tool message records both the
timeout annotation and the partial output. -/
theorem terminal_tool_failure_keeps_partial_output_witness :
    ((runTerminalCommand timeoutOutcome).1 = timeoutOutcome.output ∧
      (runTerminalCommand timeoutOutcome).2 ≠ none) ∧
    processToolCall timeoutEnv [] (({ silent := false, logEnabled := false } : SinkState), [])
        { id := "c1", name := "terminal", arguments := "\x7b\"command\":\"sleep 60\"\x7d" } =
      (((({ silent := false, logEnabled := false } : SinkState).emit .CMD "sleep 60").emit
          .ERR ("tool error: " ++ "command timed out")).emit .OUT "partial",
       [] ++ [{ role := "tool",
                content := "[" ++ "terminal" ++ " result]\n" ++
                    ("tool error: " ++ "command timed out") ++ "\n" ++ "partial",
                toolCallID := "c1" }]) := by
  refine ⟨terminal_tool_failure_keeps_partial_output.1 timeoutOutcome (Or.inl rfl), ?_⟩
  exact terminal_tool_failure_keeps_partial_output.2 timeoutEnv []
    { silent := false, logEnabled := false } []
    { id := "c1", name := "terminal", arguments := "\x7b\"command\":\"sleep 60\"\x7d" }
    "sleep 60" "partial" "command timed out" rfl rfl rfl (by decide)


/-! ## Silent + log combined behaviour (claim C4) -/

theorem concatStrings_foldl (l : List String) :
    ∀ a, l.foldl (· ++ ·) a = a ++ concatStrings l := by
  induction l with
  | nil => intro a; simp [concatStrings, String.append_empty]
  | cons x xs ih =>
    intro a
    simp only [concatStrings, List.foldl_cons]
    rw [ih (a ++ x), ih ("" ++ x), String.empty_append, String.append_assoc]

theorem concatStrings_cons (x : String) (xs : List String) :
    concatStrings (x :: xs) = x ++ concatStrings xs := by
  simp only [concatStrings, List.foldl_cons]
  rw [concatStrings_foldl xs ("" ++ x), String.empty_append]
  rfl

theorem consumeStream_silent_text (chunks : List String) :
    ∀ (s : SinkState) (ft : String), s.silent = true →
      consumeStream s ft "" [] false (chunks.map textEvent ++ [doneEvent])
        = .finished s (ft ++ concatStrings chunks) "" [] false := by
  induction chunks with
  | nil =>
    intro s ft hs
    simp [consumeStream, concatStrings, textEvent, doneEvent, String.append_empty]
  | cons c cs ih =>
    intro s ft hs
    simp only [List.map_cons, List.cons_append, consumeStream, textEvent]
    simp only [hs]
    rw [concatStrings_cons]
    by_cases hc : c = ""
    · subst hc
      simp only [bne_self_eq_false, Bool.false_eq_true, if_false, String.empty_append]
      exact ih s ft hs
    · have hc' : (c != "") = true := by simpa using hc
      simp only [hc', if_true, Bool.not_true, Bool.false_eq_true, if_false,
        bne_self_eq_false, List.isEmpty_nil, List.append_eq]
      rw [ih s (ft ++ c) hs, String.append_assoc]

theorem runLoop_silent_text (env : RunEnv) (skills : List Skill) (chunks : List String)
    (n i : Nat) (msgs : List Message) (s : SinkState)
    (hs : s.silent = true)
    (h0 : env.streams i = .ok (chunks.map textEvent ++ [doneEvent]))
    (hne : concatStrings chunks ≠ "")
    (hinf : inferReasoningSummary (concatStrings chunks) = "") :
    runLoop env skills (Nat.succ n) i msgs s =
      { err := none, sink := s.emitFinal (concatStrings chunks),
        messages := msgs, streamCalls := i + 1 } := by
  simp only [runLoop, h0]
  rw [consumeStream_silent_text chunks s "" hs, String.empty_append]
  have hne' : (concatStrings chunks != "") = true := by simpa using hne
  simp only [hs, hinf, hne', List.isEmpty_nil, Bool.and_true, Bool.not_true,
    Bool.and_false, Bool.false_eq_true, if_false, if_true, bne_self_eq_false]

/-- Claim C4, amended: with silent mode and logging both enabled and a stream
of AI text chunks followed by a text-only end of stream, the console receives
only the final response line, and the log contains, after the session header,
exactly ONE AI record carrying the concatenated response; streamed chunks are
not logged as individual records (EmitAIChunk never writes to the log, and in
silent mode it is not even called). -/
theorem silent_log_final_only (env : RunEnv) (chunks : List String)
    (sys user : String) (skills : List Skill)
    (h0 : env.streams 0 = .ok (chunks.map textEvent ++ [doneEvent]))
    (hne : concatStrings chunks ≠ "")
    (hinf : inferReasoningSummary (concatStrings chunks) = "") :
    (sessionRun env true true sys user skills).err = none ∧
    (sessionRun env true true sys user skills).sink.console
        = concatStrings chunks ++
            (if endsWithNewline (concatStrings chunks) then "" else "\n") ∧
    (sessionRun env true true sys user skills).sink.log
        = [.header, .record .AI (concatStrings chunks)] := by
  have h := runLoop_silent_text env skills chunks 9 0
    (buildMessages sys user skills)
    (({ silent := true, logEnabled := true } : SinkState).writeHeader)
    rfl h0 hne hinf
  have hsess : sessionRun env true true sys user skills =
      { err := none,
        sink := (({ silent := true, logEnabled := true } : SinkState).writeHeader).emitFinal
          (concatStrings chunks),
        messages := buildMessages sys user skills, streamCalls := 0 + 1 } := h
  rw [hsess]
  refine ⟨rfl, ?_, rfl⟩
  simp only [SinkState.emitFinal, SinkState.writeHeader]
  exact String.empty_append _

/-- Claim C4, counterexample to the claim as stated: chunks "a" and "b" with
a final text-only response yield a log holding the header and a single AI
record "ab"; no per-chunk AI record ("a") exists, though the claim requires
one AI record per streamed chunk.  The console holds only the final line. -/
theorem silent_log_chunks_not_logged_cex :
    (sessionRun silentLogEnv true true "" "hi" []).sink.log
        = [.header, .record .AI "ab"] ∧
    LogEntry.record .AI "a" ∉ (sessionRun silentLogEnv true true "" "hi" []).sink.log ∧
    (sessionRun silentLogEnv true true "" "hi" []).sink.console = "ab\n" := by
  refine ⟨by decide, by decide, by decide⟩

/-- Claim C4 witness: the amended statement applied to the concrete scenario
(chunks "a", "b"). -/
theorem silent_log_final_only_witness :
    (sessionRun silentLogEnv true true "" "hi" []).err = none ∧
    (sessionRun silentLogEnv true true "" "hi" []).sink.console
        = concatStrings ["a", "b"] ++
            (if endsWithNewline (concatStrings ["a", "b"]) then "" else "\n") ∧
    (sessionRun silentLogEnv true true "" "hi" []).sink.log
        = [.header, .record .AI (concatStrings ["a", "b"])] := by
  exact silent_log_final_only silentLogEnv ["a", "b"] "" "hi" []
    rfl (by decide) (by decide)


/-! ## Quote/unquote round trip (claims C8 and C10) -/

theorem char_eq_of_toNat {c : Char} {n : Nat} (h : c.toNat = n) : c = Char.ofNat n := by
  subst h
  exact (Char.ofNat_toNat c).symm

theorem char_valid_ranges (c : Char) :
    c.toNat < 0xD800 ∨ (0xDFFF < c.toNat ∧ c.toNat < 0x110000) := by
  have h := c.valid
  unfold UInt32.isValidChar Nat.isValidChar at h
  exact h

theorem runeOfNat_toNat (c : Char) : runeOfNat c.toNat = c := by
  unfold runeOfNat
  rw [if_neg, Char.ofNat_toNat]
  rcases char_valid_ranges c with h | h <;> omega

theorem unhexDigit_hexDigitChar : ∀ d, d < 16 → unhexDigit (hexDigitChar d) = some d := by
  decide

theorem parseHexN_toHexN :
    ∀ (n v acc : Nat) (rest : List Char), v < 16 ^ n →
      parseHexN n acc (toHexN n v ++ rest) = some (acc * 16 ^ n + v, rest) := by
  intro n
  induction n with
  | zero =>
    intro v acc rest hv
    have hv0 : v = 0 := by simpa using hv
    subst hv0
    simp [toHexN, parseHexN]
  | succ k ih =>
    intro v acc rest hv
    have hpos : 0 < 16 ^ k := pow_pos (by norm_num) k
    have hd : v / 16 ^ k < 16 := by
      rw [Nat.div_lt_iff_lt_mul hpos, mul_comm, ← pow_succ]
      exact hv
    simp only [toHexN, List.cons_append, List.append_eq, parseHexN,
      unhexDigit_hexDigitChar _ hd]
    rw [ih (v % 16 ^ k) (acc * 16 + v / 16 ^ k) rest (Nat.mod_lt _ hpos)]
    have hmod : 16 ^ k * (v / 16 ^ k) + v % 16 ^ k = v := Nat.div_add_mod v (16 ^ k)
    simp only [Option.some.injEq, Prod.mk.injEq, and_true]
    generalize hq : v / 16 ^ k = q at *
    generalize hr : v % 16 ^ k = r at *
    rw [pow_succ, ← hmod]
    ring

theorem unquoteChar_hex (l : List Char) :
    unquoteChar '"' (backslash :: 'x' :: l) =
      (match parseHexN 2 0 l with
       | some (v, r) => some (Char.ofNat v, r)
       | none => none) := rfl

theorem unquoteChar_u4 (l : List Char) :
    unquoteChar '"' (backslash :: 'u' :: l) =
      (match parseHexN 4 0 l with
       | some (v, r) => some (runeOfNat v, r)
       | none => none) := rfl

theorem unquoteChar_u8 (l : List Char) :
    unquoteChar '"' (backslash :: 'U' :: l) =
      (match parseHexN 8 0 l with
       | some (v, r) => if v ≤ 0x10FFFF then some (runeOfNat v, r) else none
       | none => none) := rfl

theorem unquoteChar_raw {c : Char} (h1 : c ≠ '"') (h2 : c ≠ backslash) (rest : List Char) :
    unquoteChar '"' (c :: rest) = some (c, rest) := by
  show (if c = '"' then none
    else if c ≠ backslash then some (c, rest)
    else unquoteEscape '"' rest) = some (c, rest)
  rw [if_neg h1, if_pos h2]

theorem quoteChar_eq_escape {c : Char}
    (h1 : ¬(c = '"' ∨ c = backslash)) (h2 : ¬asciiIsPrint c = true) :
    quoteChar c =
      (if c.toNat = 7 then [backslash, 'a']
       else if c.toNat = 8 then [backslash, 'b']
       else if c.toNat = 12 then [backslash, 'f']
       else if c.toNat = 10 then [backslash, 'n']
       else if c.toNat = 13 then [backslash, 'r']
       else if c.toNat = 9 then [backslash, 't']
       else if c.toNat = 11 then [backslash, 'v']
       else if c.toNat < 0x20 ∨ c.toNat = 0x7F then backslash :: 'x' :: toHexN 2 c.toNat
       else if c.toNat < 0x10000 then backslash :: 'u' :: toHexN 4 c.toNat
       else backslash :: 'U' :: toHexN 8 c.toNat) := by
  unfold quoteChar
  rw [if_neg h1, if_neg h2]

theorem unquoteChar_quoteChar (c : Char) (rest : List Char) :
    unquoteChar '"' (quoteChar c ++ rest) = some (c, rest) := by
  by_cases h1 : c = '"' ∨ c = backslash
  · have hq : quoteChar c = [backslash, c] := by unfold quoteChar; rw [if_pos h1]
    rw [hq]
    rcases h1 with rfl | rfl <;> rfl
  by_cases h2 : asciiIsPrint c = true
  · have hq : quoteChar c = [c] := by unfold quoteChar; rw [if_neg h1, if_pos h2]
    rw [hq]
    push_neg at h1
    exact unquoteChar_raw h1.1 h1.2 rest
  rw [quoteChar_eq_escape h1 h2]
  by_cases h3 : c.toNat = 7
  · rw [if_pos h3]; obtain rfl := char_eq_of_toNat h3; rfl
  rw [if_neg h3]
  by_cases h4 : c.toNat = 8
  · rw [if_pos h4]; obtain rfl := char_eq_of_toNat h4; rfl
  rw [if_neg h4]
  by_cases h5 : c.toNat = 12
  · rw [if_pos h5]; obtain rfl := char_eq_of_toNat h5; rfl
  rw [if_neg h5]
  by_cases h6 : c.toNat = 10
  · rw [if_pos h6]; obtain rfl := char_eq_of_toNat h6; rfl
  rw [if_neg h6]
  by_cases h7 : c.toNat = 13
  · rw [if_pos h7]; obtain rfl := char_eq_of_toNat h7; rfl
  rw [if_neg h7]
  by_cases h8 : c.toNat = 9
  · rw [if_pos h8]; obtain rfl := char_eq_of_toNat h8; rfl
  rw [if_neg h8]
  by_cases h9 : c.toNat = 11
  · rw [if_pos h9]; obtain rfl := char_eq_of_toNat h9; rfl
  rw [if_neg h9]
  by_cases h10 : c.toNat < 0x20 ∨ c.toNat = 0x7F
  · rw [if_pos h10]
    have hlt : c.toNat < 16 ^ 2 := by
      have h16 : (16 : Nat) ^ 2 = 256 := by norm_num
      rcases h10 with h | h <;> omega
    rw [List.cons_append, List.cons_append, unquoteChar_hex,
      parseHexN_toHexN 2 c.toNat 0 rest hlt]
    simp only [Nat.zero_mul, Nat.zero_add, Char.ofNat_toNat]
  rw [if_neg h10]
  by_cases h11 : c.toNat < 0x10000
  · rw [if_pos h11]
    have hlt : c.toNat < 16 ^ 4 := by
      have h16 : (16 : Nat) ^ 4 = 65536 := by norm_num
      omega
    rw [List.cons_append, List.cons_append, unquoteChar_u4,
      parseHexN_toHexN 4 c.toNat 0 rest hlt]
    simp only [Nat.zero_mul, Nat.zero_add, runeOfNat_toNat]
  rw [if_neg h11]
  have hlt : c.toNat < 16 ^ 8 := by
    have h16 : (16 : Nat) ^ 8 = 4294967296 := by norm_num
    rcases char_valid_ranges c with h | h <;> omega
  have hmax : c.toNat ≤ 0x10FFFF := by
    rcases char_valid_ranges c with h | h <;> omega
  rw [List.cons_append, List.cons_append, unquoteChar_u8,
    parseHexN_toHexN 8 c.toNat 0 rest hlt]
  simp only [Nat.zero_mul, Nat.zero_add, if_pos hmax, runeOfNat_toNat]

theorem quoteChar_ne_nil (c : Char) : quoteChar c ≠ [] := by
  intro h
  have h2 := unquoteChar_quoteChar c []
  rw [h, List.nil_append] at h2
  exact Option.noConfusion h2

theorem hexDigitChar_cases (d : Nat) :
    hexDigitChar d ∈ "0123456789abcdef".data ∨ hexDigitChar d = '0' := by
  unfold hexDigitChar
  rw [List.getD_eq_getElem?_getD]
  cases hg : "0123456789abcdef".data[d]? with
  | none => right; rfl
  | some x =>
    left
    have hx := List.getElem?_mem hg
    simpa using hx

theorem toHexN_chars (c : Char) : ∀ n v, c ∈ toHexN n v →
    c ∈ "0123456789abcdef".data ∨ c = '0' := by
  intro n
  induction n with
  | zero => intro v h; simp [toHexN] at h
  | succ k ih =>
    intro v h
    simp only [toHexN, List.mem_cons] at h
    rcases h with rfl | h
    · exact hexDigitChar_cases _
    · exact ih _ h

theorem newline_not_mem_toHexN (n v : Nat) : '\n' ∉ toHexN n v := by
  intro hm
  rcases toHexN_chars _ n v hm with hh | hh
  · revert hh; decide
  · exact absurd hh (by decide)

theorem newline_not_mem_quoteChar (c : Char) : '\n' ∉ quoteChar c := by
  by_cases h1 : c = '"' ∨ c = backslash
  · have hq : quoteChar c = [backslash, c] := by unfold quoteChar; rw [if_pos h1]
    rw [hq]
    rcases h1 with rfl | rfl <;> decide
  by_cases h2 : asciiIsPrint c = true
  · have hq : quoteChar c = [c] := by unfold quoteChar; rw [if_neg h1, if_pos h2]
    rw [hq]
    intro hm
    simp only [List.mem_singleton] at hm
    rw [← hm] at h2
    exact absurd h2 (by decide)
  rw [quoteChar_eq_escape h1 h2]
  intro hm
  split_ifs at hm with g1 g2 g3 g4 g5 g6 g7 g8 g9
  any_goals revert hm; decide
  all_goals
    simp only [List.mem_cons] at hm
    rcases hm with hm | hm
    · exact absurd hm.symm (by decide)
    · rcases hm with hm | hm
      · exact absurd hm.symm (by decide)
      · exact newline_not_mem_toHexN _ _ hm

theorem newline_not_mem_escaped (v : List Char) :
    '\n' ∉ (v.map quoteChar).flatten := by
  intro hm
  rw [List.mem_flatten] at hm
  obtain ⟨l, hl, hml⟩ := hm
  rw [List.mem_map] at hl
  obtain ⟨c, _, rfl⟩ := hl
  exact newline_not_mem_quoteChar c hml

theorem escaped_length_ge (v : List Char) :
    v.length ≤ ((v.map quoteChar).flatten).length := by
  induction v with
  | nil => simp
  | cons c v' ih =>
    simp only [List.map_cons, List.flatten_cons, List.length_append, List.length_cons]
    have h1 : 1 ≤ (quoteChar c).length := by
      cases hq : quoteChar c with
      | nil => exact absurd hq (quoteChar_ne_nil c)
      | cons _ _ => simp
    omega

theorem unquoteLoop_escaped (l : List Char) :
    ∀ fuel, l.length ≤ fuel →
      unquoteLoop '"' fuel ((l.map quoteChar).flatten) = some l := by
  induction l with
  | nil =>
    intro fuel _
    cases fuel <;> rfl
  | cons c l' ih =>
    intro fuel hf
    have hl : l'.length + 1 ≤ fuel := by simpa using hf
    obtain ⟨f, rfl⟩ : ∃ f, fuel = f + 1 := ⟨fuel - 1, by omega⟩
    obtain ⟨h, t, hqc⟩ : ∃ h t, quoteChar c = h :: t := by
      cases hq : quoteChar c with
      | nil => exact absurd hq (quoteChar_ne_nil c)
      | cons h t => exact ⟨h, t, rfl⟩
    have hch := unquoteChar_quoteChar c ((l'.map quoteChar).flatten)
    rw [hqc, List.cons_append] at hch
    simp only [List.map_cons, List.flatten_cons, hqc, List.cons_append, unquoteLoop]
    rw [hch]
    show (match unquoteLoop '"' f ((l'.map quoteChar).flatten) with
      | none => none
      | some ds => some (c :: ds)) = some (c :: l')
    rw [ih f (by omega)]

theorem goUnquote_goQuote (v : List Char) : goUnquote (goQuote v) = some v := by
  have hg : goQuote v = '"' :: ((v.map quoteChar).flatten ++ ['"']) := rfl
  rw [hg, goUnquote]
  rw [if_neg (by simp)]
  rw [List.getLast?_concat]
  show (if ('"' : Char) ≠ '"' then none
    else if '\n' ∈ ((v.map quoteChar).flatten ++ ['"']).dropLast then none
    else if ('"' : Char) = '"' then
      unquoteLoop '"' ((v.map quoteChar).flatten ++ ['"']).dropLast.length
        ((v.map quoteChar).flatten ++ ['"']).dropLast
    else match unquoteChar '"' ((v.map quoteChar).flatten ++ ['"']).dropLast with
      | some (c, []) => some [c]
      | _ => none) = some v
  rw [List.dropLast_concat]
  rw [if_neg (by simp), if_neg (newline_not_mem_escaped v), if_pos rfl]
  exact unquoteLoop_escaped v _ (escaped_length_ge v)

/-! ## TrimSpace lemmas (claims C8 and C10) -/

theorem dropWhile_head_not {p : Char → Bool} :
    ∀ (l : List Char) c t, l.dropWhile p = c :: t → p c = false := by
  intro l
  induction l with
  | nil => intro c t h; simp at h
  | cons a l' ih =>
    intro c t h
    by_cases hp : p a = true
    · rw [List.dropWhile_cons_of_pos hp] at h
      exact ih c t h
    · rw [List.dropWhile_cons_of_neg hp] at h
      injection h with h1 _
      subst h1
      simpa using hp

theorem dropWhile_eq_self_of_head {p : Char → Bool} {l : List Char} {c : Char} {t : List Char}
    (hl : l = c :: t) (hc : p c = false) : l.dropWhile p = l := by
  subst hl
  exact List.dropWhile_cons_of_neg (by simp [hc])

theorem trimSpaceCl_parts {l : List Char} (h : trimSpaceCl l = l) :
    l.dropWhile goIsSpace = l ∧ l.reverse.dropWhile goIsSpace = l.reverse := by
  have hs1 : List.Sublist (l.dropWhile goIsSpace) l := (List.dropWhile_suffix goIsSpace).sublist
  have hlen1 : (l.dropWhile goIsSpace).length ≤ l.length := hs1.length_le
  have hlen2 : (trimSpaceCl l).length ≤ (l.dropWhile goIsSpace).length := by
    unfold trimSpaceCl
    rw [List.length_reverse]
    calc ((l.dropWhile goIsSpace).reverse.dropWhile goIsSpace).length
        ≤ (l.dropWhile goIsSpace).reverse.length :=
          ((List.dropWhile_suffix goIsSpace).sublist).length_le
      _ = (l.dropWhile goIsSpace).length := List.length_reverse _
  have hlenl : (trimSpaceCl l).length = l.length := by rw [h]
  have heq1 : l.dropWhile goIsSpace = l := hs1.eq_of_length (by omega)
  refine ⟨heq1, ?_⟩
  have h2 : (l.reverse.dropWhile goIsSpace).reverse = l := by
    have hx := h
    unfold trimSpaceCl at hx
    rw [heq1] at hx
    exact hx
  have h3 := congrArg List.reverse h2
  rw [List.reverse_reverse] at h3
  exact h3

theorem head_not_space_of_trim_eq {k : List Char} {c : Char} {t : List Char}
    (h : trimSpaceCl k = k) (hk : k = c :: t) : goIsSpace c = false := by
  have h1 := (trimSpaceCl_parts h).1
  rw [hk] at h1
  exact dropWhile_head_not _ _ _ h1

theorem last_not_space_of_trim_eq {k : List Char} {d : Char}
    (h : trimSpaceCl k = k) (hk : k.getLast? = some d) : goIsSpace d = false := by
  have h2 := (trimSpaceCl_parts h).2
  have hrev : k.reverse.head? = some d := by rw [List.head?_reverse]; exact hk
  cases hr : k.reverse with
  | nil => rw [hr] at hrev; simp at hrev
  | cons a t' =>
    rw [hr] at hrev h2
    injection hrev with ha
    subst ha
    exact dropWhile_head_not _ _ _ h2

theorem trimSpaceCl_eq_self {l : List Char} {c d : Char}
    (hh : l.head? = some c) (hc : goIsSpace c = false)
    (hl : l.getLast? = some d) (hd : goIsSpace d = false) :
    trimSpaceCl l = l := by
  obtain ⟨a, t, rfl⟩ : ∃ a t, l = a :: t := by
    cases l with
    | nil => simp at hh
    | cons a t => exact ⟨a, t, rfl⟩
  have hca : goIsSpace a = false := by
    have hac : a = c := by simpa using hh
    rw [hac]; exact hc
  unfold trimSpaceCl
  rw [dropWhile_eq_self_of_head rfl hca]
  cases hr : (a :: t).reverse with
  | nil => simp at hr
  | cons b t' =>
    have hbd : goIsSpace b = false := by
      have hb : (a :: t).getLast? = some b := by
        rw [← List.head?_reverse, hr]; rfl
      have hbd' : b = d := by
        rw [hl] at hb
        injection hb with hx
        exact hx.symm
      rw [hbd']; exact hd
    rw [List.dropWhile_cons_of_neg (by simp [hbd])]
    calc (b :: t').reverse = (a :: t).reverse.reverse := by rw [hr]
      _ = a :: t := List.reverse_reverse _

theorem trim_head_not_space {l : List Char} {c : Char} {t : List Char}
    (h : trimSpaceCl l = c :: t) : goIsSpace c = false := by
  unfold trimSpaceCl at h
  have h2 : (l.dropWhile goIsSpace).reverse.dropWhile goIsSpace = (c :: t).reverse := by
    rw [← h, List.reverse_reverse]
  have hlast : ((l.dropWhile goIsSpace).reverse.dropWhile goIsSpace).getLast? = some c := by
    rw [h2]
    rw [← List.head?_reverse, List.reverse_reverse]
    rfl
  -- the dropWhile result is a suffix of the reverse, whose last element is
  -- the head of the dropWhile of l
  obtain ⟨pre, hpre⟩ := List.dropWhile_suffix (l := (l.dropWhile goIsSpace).reverse) goIsSpace
  by_cases hnil : (l.dropWhile goIsSpace).reverse.dropWhile goIsSpace = []
  · rw [hnil] at h2
    have := congrArg List.length h2
    simp at this
  · have hlast2 : (l.dropWhile goIsSpace).reverse.getLast? = some c := by
      rw [← hpre, List.getLast?_append_of_ne_nil pre hnil]
      exact hlast
    rw [← List.head?_reverse, List.reverse_reverse] at hlast2
    cases hdw : l.dropWhile goIsSpace with
    | nil => rw [hdw] at hlast2; simp at hlast2
    | cons x xs =>
      rw [hdw] at hlast2
      have hx : x = c := by injection hlast2
      rw [← hx]
      exact dropWhile_head_not l x xs hdw

theorem trim_last_not_space {l : List Char} {d : Char}
    (hne : trimSpaceCl l ≠ []) (h : (trimSpaceCl l).getLast? = some d) :
    goIsSpace d = false := by
  unfold trimSpaceCl at h hne
  rw [← List.head?_reverse, List.reverse_reverse] at h
  cases hdw : (l.dropWhile goIsSpace).reverse.dropWhile goIsSpace with
  | nil => rw [hdw] at hne; simp at hne
  | cons x xs =>
    rw [hdw] at h
    injection h with hx
    subst hx
    exact dropWhile_head_not _ _ _ hdw

theorem trimSpaceCl_idem (l : List Char) : trimSpaceCl (trimSpaceCl l) = trimSpaceCl l := by
  cases h : trimSpaceCl l with
  | nil => rfl
  | cons c t =>
    have hc : goIsSpace c = false := trim_head_not_space h
    cases hlast : (c :: t).getLast? with
    | none => simp at hlast
    | some d =>
      have hd : goIsSpace d = false := by
        refine trim_last_not_space (l := l) ?_ ?_
        · rw [h]; simp
        · rw [h]; exact hlast
      exact trimSpaceCl_eq_self rfl hc hlast hd

theorem mem_of_mem_trim {x : Char} {l : List Char} (h : x ∈ trimSpaceCl l) : x ∈ l := by
  unfold trimSpaceCl at h
  rw [List.mem_reverse] at h
  have h1 := (List.dropWhile_suffix goIsSpace).subset h
  rw [List.mem_reverse] at h1
  exact (List.dropWhile_suffix goIsSpace).subset h1

theorem trimSpaceCl_append_space {k : List Char} (hk : trimSpaceCl k = k) (hne : k ≠ []) :
    trimSpaceCl (k ++ [' ']) = k := by
  obtain ⟨c, t, rfl⟩ : ∃ c t, k = c :: t := by
    cases k with
    | nil => exact absurd rfl hne
    | cons c t => exact ⟨c, t, rfl⟩
  have hc : goIsSpace c = false := head_not_space_of_trim_eq hk rfl
  unfold trimSpaceCl
  rw [show (c :: t) ++ [' '] = c :: (t ++ [' ']) from rfl]
  rw [List.dropWhile_cons_of_neg (by simp [hc])]
  rw [List.reverse_cons]
  rw [show (t ++ [' ']).reverse ++ [c] = ' ' :: (t.reverse ++ [c]) by simp]
  rw [List.dropWhile_cons_of_pos (by decide)]
  have h2 := (trimSpaceCl_parts hk).2
  rw [List.reverse_cons] at h2
  rw [h2]
  simp

theorem trimSpaceCl_cons_space {l : List Char} (h : trimSpaceCl l = l) :
    trimSpaceCl (' ' :: l) = l := by
  have hp := trimSpaceCl_parts h
  unfold trimSpaceCl
  rw [List.dropWhile_cons_of_pos (by decide), hp.1, hp.2, List.reverse_reverse]

/-! ## Config line structure (claims C8 and C10) -/

theorem splitEq_append {a : List Char} (ha : '=' ∉ a) (b : List Char) :
    splitEq (a ++ '=' :: b) = some (a, b) := by
  induction a with
  | nil => simp [splitEq]
  | cons c t ih =>
    have hc : ¬(c = '=') := fun hcc => ha (by simp [hcc])
    have ht : '=' ∉ t := fun hm => ha (List.mem_cons_of_mem _ hm)
    simp only [List.cons_append, splitEq, if_neg hc, List.append_eq, ih ht]

theorem splitEq_some : ∀ {l a b : List Char}, splitEq l = some (a, b) →
    '=' ∉ a ∧ l = a ++ '=' :: b := by
  intro l
  induction l with
  | nil => intro a b h; simp [splitEq] at h
  | cons c t ih =>
    intro a b h
    simp only [splitEq] at h
    by_cases hc : c = '='
    · rw [if_pos hc] at h
      injection h with h
      injection h with h1 h2
      subst hc
      rw [← h1, ← h2]
      exact ⟨by simp, rfl⟩
    · rw [if_neg hc] at h
      cases hs : splitEq t with
      | none => rw [hs] at h; simp at h
      | some p =>
        obtain ⟨p1, p2⟩ := p
        rw [hs] at h
        injection h with h
        injection h with h1 h2
        obtain ⟨hm, ht⟩ := ih hs
        constructor
        · rw [← h1]
          intro hmem
          rcases List.mem_cons.mp hmem with hx | hx
          · exact hc hx.symm
          · exact hm hx
        · rw [← h1, ← h2, ht, List.cons_append]

theorem hasPrefixCl_hash (c : Char) (l : List Char) :
    hasPrefixCl (c :: l) "#".data = (c == '#') := by
  show ((c == '#') && hasPrefixCl l []) = (c == '#')
  have h1 : hasPrefixCl l [] = true := by cases l <;> rfl
  rw [h1, Bool.and_true]

theorem goQuote_ne_nil (v : List Char) : goQuote v ≠ [] := by
  simp [goQuote]

theorem goQuote_getLast? (v : List Char) : (goQuote v).getLast? = some '"' := by
  show (('"' :: (v.map quoteChar).flatten) ++ ['"']).getLast? = some '"'
  exact List.getLast?_concat _

theorem newline_not_mem_goQuote (v : List Char) : '\n' ∉ goQuote v := by
  intro hm
  unfold goQuote at hm
  rcases List.mem_cons.mp hm with hm | hm
  · exact absurd hm (by decide)
  · rcases List.mem_append.mp hm with hm | hm
    · exact newline_not_mem_escaped v hm
    · exact absurd (List.mem_singleton.mp hm) (by decide)

theorem trimSpaceCl_goQuote (v : List Char) : trimSpaceCl (goQuote v) = goQuote v :=
  trimSpaceCl_eq_self (c := '"') (d := '"') rfl (by decide) (goQuote_getLast? v) (by decide)

theorem configLine_getLast? (kv : List Char × List Char) :
    (configLine kv).getLast? = some '"' := by
  unfold configLine
  rw [List.getLast?_append_of_ne_nil _ (goQuote_ne_nil kv.2)]
  exact goQuote_getLast? kv.2

theorem newline_not_mem_configLine {kv : List Char × List Char}
    (h : '\n' ∉ kv.1) : '\n' ∉ configLine kv := by
  intro hm
  unfold configLine at hm
  rcases List.mem_append.mp hm with hm | hm
  · rcases List.mem_append.mp hm with hm | hm
    · exact h hm
    · revert hm; decide
  · exact newline_not_mem_goQuote kv.2 hm

theorem parseKV_configParts {k v : List Char} (hne : k ≠ [])
    (htrim : trimSpaceCl k = k) :
    parseKV (k ++ [' ']) (' ' :: goQuote v) = .ok (some (k, v)) := by
  simp only [parseKV]
  rw [trimSpaceCl_append_space htrim hne]
  rw [trimSpaceCl_cons_space (trimSpaceCl_goQuote v)]
  obtain ⟨c, t, rfl⟩ : ∃ c t, k = c :: t := by
    cases k with
    | nil => exact absurd rfl hne
    | cons c t => exact ⟨c, t, rfl⟩
  rw [if_neg (by simp)]
  have hq : hasPrefixCl (goQuote v) "\"".data = true := by
    show (('"' == '"') && hasPrefixCl ((v.map quoteChar).flatten ++ ['"']) []) = true
    have h1 : hasPrefixCl ((v.map quoteChar).flatten ++ ['"']) [] = true := by
      cases (v.map quoteChar).flatten ++ ['"'] <;> rfl
    rw [h1]
    rfl
  rw [if_pos (by rw [hq, Bool.true_or])]
  rw [goUnquote_goQuote v]

theorem parseConfigLine_configLine {kv : List Char × List Char}
    (hk : wellFormedKey kv.1) :
    parseConfigLine (configLine kv) = .ok (some kv) := by
  obtain ⟨k, v⟩ := kv
  obtain ⟨hne, htrim, heqm, hnl, hhash⟩ := hk
  obtain ⟨c, t, rfl⟩ : ∃ c t, k = c :: t := by
    cases k with
    | nil => exact absurd rfl hne
    | cons c t => exact ⟨c, t, rfl⟩
  have hc : goIsSpace c = false := head_not_space_of_trim_eq htrim rfl
  have hch : (c == '#') = false := by
    have hx : hasPrefixCl (c :: t) "#".data = (c == '#') := hasPrefixCl_hash c t
    cases hcc : (c == '#') with
    | false => rfl
    | true =>
      exfalso
      exact hhash (by show hasPrefixCl (c :: t) "#".data = true; rw [hx, hcc])
  have hline : configLine (c :: t, v)
      = ((c :: t) ++ [' ']) ++ '=' :: (' ' :: goQuote v) := by
    show (c :: t) ++ " = ".data ++ goQuote v = ((c :: t) ++ [' ']) ++ '=' :: (' ' :: goQuote v)
    simp
  have htl : trimSpaceCl (configLine (c :: t, v)) = configLine (c :: t, v) :=
    trimSpaceCl_eq_self (c := c) (d := '"') rfl hc (configLine_getLast? _) (by decide)
  have hisEmpty : (configLine (c :: t, v)).isEmpty = false := rfl
  have hhashLine : hasPrefixCl (configLine (c :: t, v)) "#".data = false := by
    show hasPrefixCl (c :: (t ++ " = ".data ++ goQuote v)) "#".data = false
    rw [hasPrefixCl_hash]
    exact hch
  have hsplit : splitEq (configLine (c :: t, v))
      = some ((c :: t) ++ [' '], ' ' :: goQuote v) := by
    rw [hline]
    refine splitEq_append ?_ _
    intro hm
    rcases List.mem_append.mp hm with hm | hm
    · exact heqm hm
    · revert hm; decide
  simp only [parseConfigLine]
  rw [htl]
  rw [if_neg (by rw [hisEmpty, hhashLine]; exact Bool.false_ne_true)]
  rw [hsplit]
  show parseKV ((c :: t) ++ [' ']) (' ' :: goQuote v) = .ok (some (c :: t, v))
  exact parseKV_configParts hne htrim

theorem dropCR_configLine (kv : List Char × List Char) :
    dropCR (configLine kv) = configLine kv := by
  unfold dropCR
  rw [configLine_getLast?]
  simp

theorem byteLen_append (a b : List Char) : byteLen (a ++ b) = byteLen a + byteLen b := by
  simp [byteLen]

theorem splitLinesGo_line {line : List Char} (h : '\n' ∉ line) :
    ∀ acc rest, byteLen (acc ++ line) < maxScanTokenSize →
      splitLinesGo acc (line ++ '\n' :: rest)
        = (dropCR (acc ++ line) :: (splitLinesGo [] rest).1, (splitLinesGo [] rest).2) := by
  induction line with
  | nil =>
    intro acc rest hlen
    simp only [List.nil_append, List.append_nil] at hlen ⊢
    simp [splitLinesGo, Nat.not_le.mpr hlen]
  | cons c t ih =>
    intro acc rest hlen
    have hc : ¬(c = '\n') := fun hcc => h (by simp [hcc])
    have hacc : byteLen acc < maxScanTokenSize := by
      refine Nat.lt_of_le_of_lt ?_ hlen
      rw [byteLen_append]
      exact Nat.le_add_right _ _
    simp only [List.cons_append, splitLinesGo, if_neg (Nat.not_le.mpr hacc), if_neg hc,
      List.append_eq]
    rw [ih (fun hm => h (List.mem_cons_of_mem _ hm)) (acc ++ [c]) rest
      (by rw [show (acc ++ [c]) ++ t = acc ++ c :: t from by simp]; exact hlen)]
    simp [List.append_assoc]

theorem splitLines_configSave (es : List (List Char × List Char))
    (h : ∀ kv ∈ es, '\n' ∉ configLine kv)
    (hlen : ∀ kv ∈ es, byteLen (configLine kv) < maxScanTokenSize) :
    splitLines ((es.map (fun kv => configLine kv ++ ['\n'])).flatten)
      = (es.map configLine, false) := by
  induction es with
  | nil => rfl
  | cons kv es' ih =>
    simp only [List.map_cons, List.flatten_cons]
    have hassoc : (configLine kv ++ ['\n']) ++
          (es'.map (fun x => configLine x ++ ['\n'])).flatten
        = configLine kv ++ ('\n' :: (es'.map (fun x => configLine x ++ ['\n'])).flatten) := by
      simp
    unfold splitLines
    rw [hassoc, splitLinesGo_line (h kv (by simp)) [] _
        (by rw [List.nil_append]; exact hlen kv (by simp)),
      List.nil_append, dropCR_configLine]
    have ih2 := ih (fun x hx => h x (by simp [hx])) (fun x hx => hlen x (by simp [hx]))
    unfold splitLines at ih2
    rw [ih2]


/-! ## Go map embedding: lookup and assignment lemmas -/

theorem mapGet_eq_none (m : List (List Char × List Char)) (k : List Char) :
    mapGet m k = none ↔ k ∉ m.map Prod.fst := by
  induction m with
  | nil => simp [mapGet]
  | cons kv rest ih =>
    obtain ⟨k0, v0⟩ := kv
    by_cases h : k0 = k
    · subst h
      simp [mapGet]
    · simp only [mapGet, if_neg h, List.map_cons, List.mem_cons, not_or, ih]
      constructor
      · intro hnm
        exact ⟨fun he => h he.symm, hnm⟩
      · intro hp
        exact hp.2

theorem mapGet_mem : ∀ {m : List (List Char × List Char)} {k v : List Char},
    mapGet m k = some v → (k, v) ∈ m := by
  intro m
  induction m with
  | nil => intro k v h; simp [mapGet] at h
  | cons kv rest ih =>
    intro k v h
    obtain ⟨k0, v0⟩ := kv
    by_cases hk : k0 = k
    · subst hk
      rw [show mapGet ((k0, v0) :: rest) k0 = some v0 from by simp [mapGet]] at h
      injection h with h
      rw [← h]
      exact List.mem_cons_self _ _
    · rw [show mapGet ((k0, v0) :: rest) k = mapGet rest k from by simp [mapGet, hk]] at h
      exact List.mem_cons_of_mem _ (ih h)

theorem mapGet_of_mem : ∀ {m : List (List Char × List Char)} {k v : List Char},
    (m.map Prod.fst).Nodup → (k, v) ∈ m → mapGet m k = some v := by
  intro m
  induction m with
  | nil => intro k v _ hm; cases hm
  | cons kv rest ih =>
    intro k v hn hm
    obtain ⟨k0, v0⟩ := kv
    rcases List.mem_cons.mp hm with he | hmem
    · injection he with h1 h2
      subst h1
      subst h2
      simp [mapGet]
    · have hk0 : ¬(k0 = k) := by
        intro he
        subst he
        exact (List.nodup_cons.mp hn).1
          (List.mem_map.mpr ⟨(k0, v), hmem, rfl⟩)
      simp only [mapGet, if_neg hk0]
      exact ih (List.nodup_cons.mp hn).2 hmem

theorem mapGet_perm {m m2 : List (List Char × List Char)}
    (hp : m.Perm m2) (hn : (m.map Prod.fst).Nodup) (k : List Char) :
    mapGet m k = mapGet m2 k := by
  have hn2 : (m2.map Prod.fst).Nodup := ((hp.map Prod.fst).nodup_iff).mp hn
  cases hv : mapGet m k with
  | none =>
    have hk : k ∉ m.map Prod.fst := (mapGet_eq_none m k).mp hv
    have hk2 : k ∉ m2.map Prod.fst := fun h => hk (((hp.map Prod.fst).mem_iff).mpr h)
    exact ((mapGet_eq_none m2 k).mpr hk2).symm
  | some v =>
    exact (mapGet_of_mem hn2 (hp.mem_iff.mp (mapGet_mem hv))).symm

theorem mapGet_mapSet_self (m : List (List Char × List Char)) (k v : List Char) :
    mapGet (mapSet m k v) k = some v := by
  induction m with
  | nil => simp [mapSet, mapGet]
  | cons kv rest ih =>
    obtain ⟨k0, v0⟩ := kv
    by_cases h : k0 = k
    · simp [mapSet, if_pos h, mapGet, h]
    · simp only [mapSet, if_neg h, mapGet, ih]

theorem mapGet_mapSet_other (m : List (List Char × List Char)) (k v k2 : List Char)
    (h2 : k2 ≠ k) : mapGet (mapSet m k v) k2 = mapGet m k2 := by
  induction m with
  | nil =>
    show (if k = k2 then some v else mapGet [] k2) = mapGet [] k2
    rw [if_neg (fun he => h2 he.symm)]
  | cons kv rest ih =>
    obtain ⟨k0, v0⟩ := kv
    by_cases h : k0 = k
    · subst h
      rw [show mapSet ((k0, v0) :: rest) k0 v = (k0, v) :: rest from by
        simp [mapSet]]
      have hk02 : ¬(k0 = k2) := fun he => h2 he.symm
      simp only [mapGet, if_neg hk02]
    · simp only [mapSet, if_neg h, mapGet]
      by_cases hk02 : k0 = k2
      · rw [if_pos hk02, if_pos hk02]
      · rw [if_neg hk02, if_neg hk02]
        exact ih

theorem map_fst_mapSet (m : List (List Char × List Char)) (k v : List Char) :
    (mapSet m k v).map Prod.fst
      = if k ∈ m.map Prod.fst then m.map Prod.fst else m.map Prod.fst ++ [k] := by
  induction m with
  | nil => simp [mapSet]
  | cons kv rest ih =>
    obtain ⟨k0, v0⟩ := kv
    by_cases h : k0 = k
    · subst h
      simp [mapSet, List.mem_cons]
    · have hiff : (k ∈ k0 :: rest.map Prod.fst) ↔ k ∈ rest.map Prod.fst := by
        constructor
        · intro hm
          rcases List.mem_cons.mp hm with he | hm2
          · exact absurd he.symm h
          · exact hm2
        · exact List.mem_cons_of_mem _
      simp only [mapSet, if_neg h, List.map_cons, ih]
      simp only [hiff]
      by_cases hmem : k ∈ rest.map Prod.fst
      · rw [if_pos hmem, if_pos hmem]
      · rw [if_neg hmem, if_neg hmem]
        rfl

theorem nodup_mapSet {m : List (List Char × List Char)}
    (hnd : (m.map Prod.fst).Nodup) (k v : List Char) :
    ((mapSet m k v).map Prod.fst).Nodup := by
  rw [map_fst_mapSet]
  by_cases hmem : k ∈ m.map Prod.fst
  · rw [if_pos hmem]; exact hnd
  · rw [if_neg hmem]
    rw [List.nodup_append]
    exact ⟨hnd, List.nodup_singleton k,
      fun a ha hb => hmem (List.mem_singleton.mp hb ▸ ha)⟩

theorem mapSet_fresh (k v : List Char) : ∀ {m : List (List Char × List Char)},
    k ∉ m.map Prod.fst → mapSet m k v = m ++ [(k, v)] := by
  intro m
  induction m with
  | nil => intro h; rfl
  | cons kv rest ih =>
    intro h
    obtain ⟨k0, v0⟩ := kv
    have hk0 : ¬(k0 = k) := fun he => h (by simp [he])
    simp only [mapSet, if_neg hk0, List.cons_append]
    rw [ih (fun hm => h (by simp [hm]))]

theorem foldl_mapSet_fresh : ∀ (es acc : List (List Char × List Char)),
    ((acc ++ es).map Prod.fst).Nodup →
    es.foldl (fun m kv => mapSet m kv.1 kv.2) acc = acc ++ es := by
  intro es
  induction es with
  | nil => intro acc _; simp
  | cons kv rest ih =>
    intro acc hn
    obtain ⟨k, v⟩ := kv
    have hfresh : k ∉ acc.map Prod.fst := by
      intro hk
      have hn2 := hn
      rw [List.map_append, List.nodup_append] at hn2
      exact hn2.2.2 hk (by simp)
    simp only [List.foldl_cons]
    rw [mapSet_fresh k v hfresh]
    have hassoc : (acc ++ [(k, v)]) ++ rest = acc ++ ((k, v) :: rest) := by simp
    rw [ih (acc ++ [(k, v)]) (by rw [hassoc]; exact hn), hassoc]

/-! ## config.Load over a saved file (claims C8 and C10) -/

theorem loadLines_cons_ok_some {line k v : List Char}
    (hp : parseConfigLine line = .ok (some (k, v)))
    (rest : List (List Char)) (values : List (List Char × List Char)) :
    loadLines (line :: rest) values = loadLines rest (mapSet values k v) := by
  conv_lhs => unfold loadLines
  rw [hp]

theorem loadLines_configLines : ∀ (es acc : List (List Char × List Char)),
    (∀ kv ∈ es, wellFormedKey kv.1) →
    loadLines (es.map configLine) acc
      = .ok (es.foldl (fun m kv => mapSet m kv.1 kv.2) acc) := by
  intro es
  induction es with
  | nil => intro acc _; rfl
  | cons kv rest ih =>
    intro acc h
    obtain ⟨k, v⟩ := kv
    have hp : parseConfigLine (configLine (k, v)) = .ok (some (k, v)) :=
      parseConfigLine_configLine (h (k, v) (by simp))
    simp only [List.map_cons]
    rw [loadLines_cons_ok_some hp]
    rw [ih (mapSet acc k v) (fun x hx => h x (by simp [hx]))]
    rw [List.foldl_cons]

theorem configLoad_configSave (m : List (List Char × List Char))
    (hwf : ∀ kv ∈ m, wellFormedKey kv.1) (hnd : (m.map Prod.fst).Nodup)
    (hlen : ∀ kv ∈ m, byteLen (configLine kv) < maxScanTokenSize) :
    configLoad (configSave m) = .ok (configSortedEntries m) := by
  have hperm : (configSortedEntries m).Perm m := List.perm_insertionSort keyLe m
  have hwf2 : ∀ kv ∈ configSortedEntries m, wellFormedKey kv.1 :=
    fun kv hkv => hwf kv (hperm.mem_iff.mp hkv)
  have hnd2 : ((configSortedEntries m).map Prod.fst).Nodup :=
    ((hperm.map Prod.fst).nodup_iff).mpr hnd
  have hlen2 : ∀ kv ∈ configSortedEntries m, byteLen (configLine kv) < maxScanTokenSize :=
    fun kv hkv => hlen kv (hperm.mem_iff.mp hkv)
  have hsplit : splitLines (configSave m) = ((configSortedEntries m).map configLine, false) := by
    unfold configSave
    exact splitLines_configSave _
      (fun kv hkv => newline_not_mem_configLine (hwf2 kv hkv).2.2.2.1) hlen2
  unfold configLoad
  simp only [hsplit]
  rw [loadLines_configLines _ [] hwf2]
  rw [foldl_mapSet_fresh _ [] (by simpa using hnd2)]
  rw [List.nil_append]
  rfl

/-! ## Every key produced by config.Load is well formed (claim C10) -/

theorem dropWhile_append_last {p : Char → Bool} {c : Char} (hc : p c = false) :
    ∀ l : List Char, (l ++ [c]).dropWhile p = l.dropWhile p ++ [c] := by
  intro l
  induction l with
  | nil => simp [List.dropWhile, hc]
  | cons a t ih =>
    by_cases h : p a = true
    · rw [List.cons_append, List.dropWhile_cons_of_pos h, List.dropWhile_cons_of_pos h]
      exact ih
    · rw [List.cons_append, List.dropWhile_cons_of_neg h, List.dropWhile_cons_of_neg h,
        List.cons_append]

theorem trimSpaceCl_cons_head {c : Char} (hc : goIsSpace c = false) (r : List Char) :
    trimSpaceCl (c :: r) = c :: (r.reverse.dropWhile goIsSpace).reverse := by
  unfold trimSpaceCl
  rw [List.dropWhile_cons_of_neg (by simp [hc])]
  rw [List.reverse_cons]
  rw [dropWhile_append_last hc r.reverse]
  rw [List.reverse_append]
  rfl

theorem dropCR_cases (l : List Char) : dropCR l = l ∨ dropCR l = l.dropLast := by
  unfold dropCR
  cases l.getLast? with
  | none => exact Or.inl rfl
  | some c =>
    show (if c = '\r' then l.dropLast else l) = l ∨
      (if c = '\r' then l.dropLast else l) = l.dropLast
    by_cases hc : c = '\r'
    · rw [if_pos hc]; exact Or.inr rfl
    · rw [if_neg hc]; exact Or.inl rfl

theorem newline_not_mem_dropCR {l : List Char} (h : '\n' ∉ l) : '\n' ∉ dropCR l := by
  rcases dropCR_cases l with he | he
  · rw [he]; exact h
  · rw [he]
    intro hm
    exact h ((List.dropLast_sublist l).subset hm)

theorem splitLinesGo_no_newline : ∀ (content acc : List Char), '\n' ∉ acc →
    ∀ line ∈ (splitLinesGo acc content).1, '\n' ∉ line := by
  intro content
  induction content with
  | nil =>
    intro acc hacc line hline
    unfold splitLinesGo at hline
    by_cases hb : maxScanTokenSize ≤ byteLen acc
    · rw [if_pos hb] at hline
      exact absurd hline (List.not_mem_nil line)
    · rw [if_neg hb] at hline
      by_cases he : acc.isEmpty = true
      · rw [if_pos he] at hline
        exact absurd hline (List.not_mem_nil line)
      · rw [if_neg he] at hline
        have hline2 : line ∈ [dropCR acc] := hline
        rw [List.mem_singleton] at hline2
        rw [hline2]
        exact newline_not_mem_dropCR hacc
  | cons c cs ih =>
    intro acc hacc line hline
    unfold splitLinesGo at hline
    by_cases hb : maxScanTokenSize ≤ byteLen acc
    · rw [if_pos hb] at hline
      exact absurd hline (List.not_mem_nil line)
    · rw [if_neg hb] at hline
      by_cases hc : c = '\n'
      · rw [if_pos hc] at hline
        have hline2 : line ∈ dropCR acc :: (splitLinesGo [] cs).1 := hline
        rcases List.mem_cons.mp hline2 with he | hmem
        · rw [he]
          exact newline_not_mem_dropCR hacc
        · exact ih [] (by simp) line hmem
      · rw [if_neg hc] at hline
        refine ih (acc ++ [c]) ?_ line hline
        intro hm
        rcases List.mem_append.mp hm with hm | hm
        · exact hacc hm
        · rw [List.mem_singleton] at hm
          exact hc hm.symm

theorem splitLines_no_newline (content : List Char) :
    ∀ line ∈ (splitLines content).1, '\n' ∉ line :=
  splitLinesGo_no_newline content [] (by simp)

theorem parseKV_key {rawKey rawVal0 : List Char} {kv : List Char × List Char}
    (h : parseKV rawKey rawVal0 = .ok (some kv)) :
    kv.1 = trimSpaceCl rawKey ∧ (trimSpaceCl rawKey).isEmpty = false := by
  simp only [parseKV] at h
  by_cases he : (trimSpaceCl rawKey).isEmpty = true
  · rw [if_pos he] at h
    exact absurd h (by simp)
  · rw [if_neg he] at h
    have he2 : (trimSpaceCl rawKey).isEmpty = false := by
      cases hb : (trimSpaceCl rawKey).isEmpty
      · rfl
      · exact absurd hb he
    refine ⟨?_, he2⟩
    by_cases hq : (hasPrefixCl (trimSpaceCl rawVal0) "\"".data
        || hasPrefixCl (trimSpaceCl rawVal0) [singleQuote]) = true
    · rw [if_pos hq] at h
      cases hu : goUnquote (trimSpaceCl rawVal0) with
      | none =>
        rw [hu] at h
        exact absurd h (by simp)
      | some v2 =>
        rw [hu] at h
        simp only [Except.ok.injEq, Option.some.injEq] at h
        rw [← h]
    · rw [if_neg hq] at h
      simp only [Except.ok.injEq, Option.some.injEq] at h
      rw [← h]

theorem parseConfigLine_wf {line : List Char} {kv : List Char × List Char}
    (hnl : '\n' ∉ line)
    (h : parseConfigLine line = .ok (some kv)) : wellFormedKey kv.1 := by
  simp only [parseConfigLine] at h
  by_cases hskip : ((trimSpaceCl line).isEmpty
      || hasPrefixCl (trimSpaceCl line) "#".data) = true
  · rw [if_pos hskip] at h
    exact absurd h (by simp)
  · rw [if_neg hskip] at h
    cases hs : splitEq (trimSpaceCl line) with
    | none =>
      rw [hs] at h
      exact absurd h (by simp)
    | some p =>
      obtain ⟨rawKey, rawVal0⟩ := p
      rw [hs] at h
      obtain ⟨hk1, hk2⟩ := parseKV_key h
      obtain ⟨hmeq, hteq⟩ := splitEq_some hs
      have hnotnil : kv.1 ≠ [] := by
        intro h0
        rw [h0] at hk1
        rw [← hk1] at hk2
        exact absurd hk2 (by simp)
      have hsubk : ∀ x ∈ kv.1, x ∈ rawKey := by
        intro x hx
        rw [hk1] at hx
        exact mem_of_mem_trim hx
      have htr : trimSpaceCl kv.1 = kv.1 := by
        rw [hk1]
        exact trimSpaceCl_idem rawKey
      have heq2 : '=' ∉ kv.1 := fun hm => hmeq (hsubk _ hm)
      have hnl2 : '\n' ∉ kv.1 := by
        intro hm
        have h1 : '\n' ∈ rawKey := hsubk _ hm
        have h2 : '\n' ∈ trimSpaceCl line := by
          rw [hteq]
          exact List.mem_append.mpr (Or.inl h1)
        exact hnl (mem_of_mem_trim h2)
      have hhash : ¬(hasPrefixCl kv.1 "#".data = true) := by
        cases hr : rawKey with
        | nil =>
          exfalso
          apply hnotnil
          rw [hk1, hr]
          rfl
        | cons a rk =>
          have hal : trimSpaceCl line = a :: (rk ++ '=' :: rawVal0) := by
            rw [hteq, hr]
            rfl
          have ha : goIsSpace a = false := trim_head_not_space hal
          have hka : kv.1 = a :: (rk.reverse.dropWhile goIsSpace).reverse := by
            rw [hk1, hr]
            exact trimSpaceCl_cons_head ha rk
          rw [hka, hasPrefixCl_hash]
          intro hae
          have hht : hasPrefixCl (trimSpaceCl line) "#".data = true := by
            rw [hal, hasPrefixCl_hash]
            exact hae
          exact hskip (by rw [hht, Bool.or_true])
      exact ⟨hnotnil, htr, heq2, hnl2, hhash⟩

theorem loadLines_inv : ∀ (lines : List (List Char))
    (values out : List (List Char × List Char)),
    (∀ line ∈ lines, '\n' ∉ line) →
    (∀ kv ∈ values, wellFormedKey kv.1) → (values.map Prod.fst).Nodup →
    loadLines lines values = .ok out →
    (∀ kv ∈ out, wellFormedKey kv.1) ∧ (out.map Prod.fst).Nodup := by
  intro lines
  induction lines with
  | nil =>
    intro values out _ hwf hnd h
    simp only [loadLines, Except.ok.injEq] at h
    rw [← h]
    exact ⟨hwf, hnd⟩
  | cons line rest ih =>
    intro values out hnl hwf hnd h
    unfold loadLines at h
    cases hp : parseConfigLine line with
    | error e =>
      rw [hp] at h
      exact absurd h (by simp)
    | ok o =>
      cases o with
      | none =>
        rw [hp] at h
        exact ih values out (fun l hl => hnl l (by simp [hl])) hwf hnd h
      | some kv2 =>
        obtain ⟨k, v⟩ := kv2
        rw [hp] at h
        have hwfk : wellFormedKey k := parseConfigLine_wf (hnl line (by simp)) hp
        refine ih (mapSet values k v) out (fun l hl => hnl l (by simp [hl])) ?_
          (nodup_mapSet hnd k v) h
        intro kv3 hkv3
        have hk3 : kv3.1 ∈ (mapSet values k v).map Prod.fst :=
          List.mem_map.mpr ⟨kv3, hkv3, rfl⟩
        rw [map_fst_mapSet] at hk3
        by_cases hmem : k ∈ values.map Prod.fst
        · rw [if_pos hmem] at hk3
          obtain ⟨kv4, hkv4, hfst⟩ := List.mem_map.mp hk3
          rw [← hfst]
          exact hwf kv4 hkv4
        · rw [if_neg hmem] at hk3
          rcases List.mem_append.mp hk3 with hk3 | hk3
          · obtain ⟨kv4, hkv4, hfst⟩ := List.mem_map.mp hk3
            rw [← hfst]
            exact hwf kv4 hkv4
          · rw [List.mem_singleton] at hk3
            rw [hk3]
            exact hwfk

theorem configLoad_wf {content : List Char} {values : List (List Char × List Char)}
    (h : configLoad content = .ok values) :
    (∀ kv ∈ values, wellFormedKey kv.1) ∧ (values.map Prod.fst).Nodup := by
  unfold configLoad at h
  cases hl : loadLines (splitLines content).1 [] with
  | error e =>
    rw [hl] at h
    exact absurd h (by simp)
  | ok v0 =>
    simp only [hl] at h
    by_cases hs : (splitLines content).2 = true
    · rw [if_pos hs] at h
      exact absurd h (by simp)
    · rw [if_neg hs] at h
      injection h with hv
      rw [← hv]
      exact loadLines_inv (splitLines content).1 [] v0
        (splitLines_no_newline content) (by simp) (by simp) hl

/-- C8 (amended): serializing a settings map whose keys are well formed
(non-empty, TrimSpace-invariant, free of '=' and of newlines, and not
opening a '#' comment) and pairwise distinct, and whose rendered
`key = "value"` lines each stay under bufio.Scanner's 64 KiB token cap,
then parsing the produced file, returns exactly the map: Load succeeds
with the save-ordered entries, and those entries assign to every key
precisely the value the original map assigns. -/
theorem config_parse_serialize_roundtrip (m : List (List Char × List Char))
    (hwf : ∀ kv ∈ m, wellFormedKey kv.1) (hnd : (m.map Prod.fst).Nodup)
    (hlen : ∀ kv ∈ m, byteLen (configLine kv) < maxScanTokenSize) :
    configLoad (configSave m) = .ok (configSortedEntries m) ∧
      ∀ k, mapGet (configSortedEntries m) k = mapGet m k := by
  refine ⟨configLoad_configSave m hwf hnd hlen, fun k => ?_⟩
  exact mapGet_perm (List.perm_insertionSort keyLe m)
    (((List.perm_insertionSort keyLe m).map Prod.fst).nodup_iff.mpr hnd) k

/-- C8 counterexample: the unrestricted round trip fails. The map sending
the key #x to v serializes to the line `#x = "v"`, which Load skips as a
comment, so parse(serialize(M)) is the empty map, not M. -/
theorem config_roundtrip_comment_key_cex :
    configLoad (configSave [(("#x").data, ("v").data)]) = .ok [] ∧
      mapGet ([] : List (List Char × List Char)) ("#x").data ≠ some ("v").data := by
  constructor
  · rfl
  · decide

theorem config_parse_serialize_roundtrip_witness :
    configLoad (configSave [(("model").data, ("gpt-5").data)])
        = .ok (configSortedEntries [(("model").data, ("gpt-5").data)]) ∧
      ∀ k, mapGet (configSortedEntries [(("model").data, ("gpt-5").data)]) k
        = mapGet [(("model").data, ("gpt-5").data)] k :=
  config_parse_serialize_roundtrip _ (by decide) (by decide) (by decide)

/-- C10 (amended): for a config file that loads without error and a well
formed key k, when every rendered line of the updated map stays under
bufio.Scanner's 64 KiB token cap, Set changes only the entry for k. Set
succeeds and writes exactly the sorted, quoted rendering of the loaded map
with k assigned to v; reloading that file succeeds and yields entries that
map k to v and every other key to its previously loaded value. -/
theorem config_set_frame (content : List Char) (values : List (List Char × List Char))
    (k v : List Char)
    (hload : configLoad content = .ok values) (hk : wellFormedKey k)
    (hlen : ∀ kv ∈ mapSet values k v, byteLen (configLine kv) < maxScanTokenSize) :
    configSet content k v = .ok (configSave (mapSet values k v)) ∧
      configLoad (configSave (mapSet values k v))
        = .ok (configSortedEntries (mapSet values k v)) ∧
      mapGet (configSortedEntries (mapSet values k v)) k = some v ∧
      ∀ k2, k2 ≠ k → mapGet (configSortedEntries (mapSet values k v)) k2
        = mapGet values k2 := by
  obtain ⟨hwf, hnd⟩ := configLoad_wf hload
  obtain ⟨hk1, hk2, hk3, hk4, hk5⟩ := hk
  have hwf2 : ∀ kv ∈ mapSet values k v, wellFormedKey kv.1 := by
    intro kv hkv
    have hfst : kv.1 ∈ (mapSet values k v).map Prod.fst :=
      List.mem_map.mpr ⟨kv, hkv, rfl⟩
    rw [map_fst_mapSet] at hfst
    by_cases hmem : k ∈ values.map Prod.fst
    · rw [if_pos hmem] at hfst
      obtain ⟨kv4, hkv4, hfst4⟩ := List.mem_map.mp hfst
      rw [← hfst4]
      exact hwf kv4 hkv4
    · rw [if_neg hmem] at hfst
      rcases List.mem_append.mp hfst with hf | hf
      · obtain ⟨kv4, hkv4, hfst4⟩ := List.mem_map.mp hf
        rw [← hfst4]
        exact hwf kv4 hkv4
      · rw [List.mem_singleton] at hf
        rw [hf]
        exact ⟨hk1, hk2, hk3, hk4, hk5⟩
  have hnd2 := nodup_mapSet hnd k v
  have hset : configSet content k v = .ok (configSave (mapSet values k v)) := by
    have hcond : ¬((trimSpaceCl k).isEmpty = true) := by
      rw [hk2]
      cases k with
      | nil => exact absurd rfl hk1
      | cons a t => simp
    unfold configSet
    rw [if_neg hcond, hload]
  have hperm : (configSortedEntries (mapSet values k v)).Perm (mapSet values k v) :=
    List.perm_insertionSort keyLe _
  have hndS : ((configSortedEntries (mapSet values k v)).map Prod.fst).Nodup :=
    ((hperm.map Prod.fst).nodup_iff).mpr hnd2
  refine ⟨hset, configLoad_configSave _ hwf2 hnd2 hlen, ?_, ?_⟩
  · rw [mapGet_perm hperm hndS k]
    exact mapGet_mapSet_self values k v
  · intro k2 h2
    rw [mapGet_perm hperm hndS k2]
    exact mapGet_mapSet_other values k v k2 h2

/-- C10 counterexample: Set accepts the malformed key a=b on an empty
config. The saved line `a=b = "v"` reads back as key a with value
`b = "v"`, so the entry for a=b is never retrievable and a fresh unrelated
key a appears: the update is not a frame-respecting write to a=b. -/
theorem config_set_frame_cex :
    configSet [] ("a=b").data ("v").data
        = .ok (configSave [(("a=b").data, ("v").data)]) ∧
      configLoad (configSave [(("a=b").data, ("v").data)])
        = .ok [(("a").data, ("b = \"v\"").data)] := by
  constructor
  · rfl
  · rfl

theorem config_set_frame_witness :
    configSet [] ("model").data ("gpt-5").data
        = .ok (configSave (mapSet [] ("model").data ("gpt-5").data)) ∧
      configLoad (configSave (mapSet [] ("model").data ("gpt-5").data))
        = .ok (configSortedEntries (mapSet [] ("model").data ("gpt-5").data)) ∧
      mapGet (configSortedEntries (mapSet [] ("model").data ("gpt-5").data))
          ("model").data = some ("gpt-5").data ∧
      ∀ k2, k2 ≠ ("model").data →
        mapGet (configSortedEntries (mapSet [] ("model").data ("gpt-5").data)) k2
          = mapGet [] k2 :=
  config_set_frame [] [] ("model").data ("gpt-5").data rfl (by decide) (by decide)

end RunAI
